import Mathlib

/-!
Verification of the fence-aware Markdown escaper scripts
(`fix_liquid.py`, `clean_fix.py`, `fix_jekyll_syntax.py`).

A document is modelled as a list of characters; a line as a list of
characters containing no newline.  The Python functions are embedded as
executable Lean functions over these types:

* `splitNl` / `joinNl` model `content.split('\n')` / `'\n'.join(lines)`;
* `isDelim` models `line.strip().startswith('```')`;
* `hasSub` models the Python substring test `pat in s`;
* `fixLoop` models the scanning loop of `fix_template_literals`
  (identical in `fix_liquid.py` and the re-wrap phase of `clean_fix.py`);
* `stripRaw` / `stripEnd` model the two global `re.sub` removal passes of
  `clean_and_fix_file`;
* `subTL` models the global `re.sub(r'\$\{([^}]+)\}', ...)` pass of
  `fix_liquid_syntax_in_file`.
-/

abbrev Line : Type := List Char
abbrev Doc : Type := List Char

/-- A line (or pattern) containing no newline character. -/
def noNl (l : List Char) : Prop := ∀ c ∈ l, c ≠ '\n'

instance (l : List Char) : Decidable (noNl l) := by
  unfold noNl; infer_instance

/-- Model of Python `content.split('\n')`: splitting on every newline,
yielding `[""]` on the empty string. -/
def splitNl : Doc → List Line
  | [] => [[]]
  | c :: cs =>
    if c = '\n' then [] :: splitNl cs
    else
      match splitNl cs with
      | [] => [[c]]
      | l :: ls => (c :: l) :: ls

/-- Model of Python `'\n'.join(lines)`. -/
def joinNl : List Line → Doc
  | [] => []
  | [l] => l
  | l :: l' :: ls => l ++ '\n' :: joinNl (l' :: ls)

theorem splitNl_ne_nil (s : Doc) : splitNl s ≠ [] := by
  induction s with
  | nil => simp [splitNl]
  | cons c cs ih =>
    simp only [splitNl]
    split
    · simp
    · split
      · simp
      · simp

theorem noNl_splitNl (s : Doc) : ∀ l ∈ splitNl s, noNl l := by
  induction s with
  | nil =>
    intro l hl
    simp [splitNl] at hl
    simp [hl, noNl]
  | cons c cs ih =>
    intro l hl
    simp only [splitNl] at hl
    split at hl
    · rcases List.mem_cons.mp hl with h | h
      · simp [h, noNl]
      · exact ih l h
    · rename_i hc
      rcases h : splitNl cs with _ | ⟨l₀, ls₀⟩
      · exact absurd h (splitNl_ne_nil cs)
      · rw [h] at hl
        rcases List.mem_cons.mp hl with h1 | h1
        · subst h1
          intro x hx
          rcases List.mem_cons.mp hx with h2 | h2
          · simp [h2]; exact hc
          · exact ih l₀ (by rw [h]; exact List.mem_cons_self _ _) x h2
        · exact ih l (by rw [h]; exact List.mem_cons_of_mem _ h1)

theorem joinNl_splitNl (s : Doc) : joinNl (splitNl s) = s := by
  induction s with
  | nil => simp [splitNl, joinNl]
  | cons c cs ih =>
    simp only [splitNl]
    split
    · rename_i hc
      subst hc
      rcases h : splitNl cs with _ | ⟨l₀, ls₀⟩
      · exact absurd h (splitNl_ne_nil cs)
      · rw [h] at ih
        simp [joinNl, ih]
    · rcases h : splitNl cs with _ | ⟨l₀, ls₀⟩
      · exact absurd h (splitNl_ne_nil cs)
      · rw [h] at ih
        rcases ls₀ with _ | ⟨l₁, ls₁⟩
        · simp [joinNl] at ih ⊢
          simp [ih]
        · simp [joinNl] at ih ⊢
          simp [ih]

theorem splitNl_append_nl (l : Line) (t : Doc) (hl : noNl l) :
    splitNl (l ++ '\n' :: t) = l :: splitNl t := by
  induction l with
  | nil => simp [splitNl]
  | cons c cs ih =>
    have hc : c ≠ '\n' := hl c (List.mem_cons_self _ _)
    have hcs : noNl cs := fun x hx => hl x (List.mem_cons_of_mem _ hx)
    simp only [List.cons_append, splitNl, List.append_eq]
    rw [if_neg hc, ih hcs]

theorem splitNl_noNl_single (l : Line) (hl : noNl l) : splitNl l = [l] := by
  induction l with
  | nil => simp [splitNl]
  | cons c cs ih =>
    have hc : c ≠ '\n' := hl c (List.mem_cons_self _ _)
    have hcs : noNl cs := fun x hx => hl x (List.mem_cons_of_mem _ hx)
    simp only [splitNl]
    rw [if_neg hc, ih hcs]

theorem splitNl_joinNl (ls : List Line) (h : ∀ l ∈ ls, noNl l) (hne : ls ≠ []) :
    splitNl (joinNl ls) = ls := by
  induction ls with
  | nil => exact absurd rfl hne
  | cons l rest ih =>
    rcases rest with _ | ⟨l', rest'⟩
    · simp [joinNl]
      exact splitNl_noNl_single l (h l (List.mem_cons_self _ _))
    · simp only [joinNl]
      rw [splitNl_append_nl l _ (h l (List.mem_cons_self _ _))]
      rw [ih (fun x hx => h x (List.mem_cons_of_mem _ hx)) (by simp)]

/-- Python whitespace characters stripped by `str.strip()` (ASCII range). -/
def pyWs (c : Char) : Bool :=
  c = ' ' || c = '\t' || c = '\n' || c = '\r' || c = '\x0b' || c = '\x0c'

/-- Model of Python `line.strip()`. -/
def pyStrip (l : Line) : Line :=
  ((l.dropWhile pyWs).reverse.dropWhile pyWs).reverse

/-- The fence delimiter test of the scripts:
`line.strip().startswith('```')`. -/
def isDelim (l : Line) : Bool :=
  ("```".data).isPrefixOf (pyStrip l)

/-- The interpolation trigger substring `${`. -/
def trigger : Doc := "$\x7b".data

/-- The opening escape marker `{% raw %}`. -/
def rawMark : Doc := "\x7b% raw %\x7d".data

/-- The closing escape marker `{% endraw %}`. -/
def endMark : Doc := "\x7b% endraw %\x7d".data

/-- The opening marker as a whole output line. -/
def rawLine : Line := rawMark

/-- The closing marker as a whole output line. -/
def endLine : Line := endMark

/-- Model of the Python substring test `pat in s`. -/
def hasSub (pat : Doc) : Doc → Bool
  | [] => pat.isEmpty
  | c :: cs => pat.isPrefixOf (c :: cs) || hasSub pat cs

/-- The scanning loop of `fix_template_literals` (`fix_liquid.py`, also the
re-wrap phase of `clean_and_fix_file` in `clean_fix.py`).  The state is the
`in_code_block` flag together with the accumulated `code_block_lines`;
note that when the input ends while still inside a code block the
accumulated lines are not flushed, exactly as in the Python source. -/
def fixLoop : List Line → Bool → List Line → List Line
  | [], _, _ => []
  | l :: rest, false, pending =>
    if isDelim l then l :: fixLoop rest true pending
    else l :: fixLoop rest false pending
  | l :: rest, true, pending =>
    if isDelim l then
      (if hasSub trigger (joinNl pending) then
        rawLine :: pending ++ [endLine] else pending) ++ l :: fixLoop rest false []
    else fixLoop rest true (pending ++ [l])

/-- `fix_template_literals` at the level of line lists. -/
def fixLines (ls : List Line) : List Line := fixLoop ls false []

/-- Model of `fix_template_literals(content)` from `fix_liquid.py`. -/
def fix_template_literals (s : Doc) : Doc := joinNl (fixLines (splitNl s))

/-! ### Helper lemmas about prefixes and substrings -/

theorem isPrefixOf_cons_cons (a b : Char) (p t : Doc) :
    (a :: p).isPrefixOf (b :: t) = ((a == b) && p.isPrefixOf t) := rfl

theorem nil_isPrefixOf (x : Doc) : ([] : Doc).isPrefixOf x = true := by
  cases x <;> rfl

theorem isPrefixOf_self_append (p x : Doc) : p.isPrefixOf (p ++ x) = true := by
  induction p with
  | nil => exact nil_isPrefixOf x
  | cons a p' ih => simp [isPrefixOf_cons_cons, ih]

theorem isPrefixOf_append_weaken (p : Doc) :
    ∀ a x : Doc, p.isPrefixOf a = true → p.isPrefixOf (a ++ x) = true := by
  induction p with
  | nil => intro a x _; exact nil_isPrefixOf _
  | cons b p' ih =>
    intro a x h
    cases a with
    | nil => exact absurd h (by simp [List.isPrefixOf])
    | cons c a' =>
      rw [isPrefixOf_cons_cons] at h
      rcases Bool.and_eq_true_iff.mp h with ⟨h1, h2⟩
      rw [List.cons_append, isPrefixOf_cons_cons, h1]
      simp [ih a' x h2]

theorem isPrefixOf_append_nl {p : Doc} (hp : noNl p) :
    ∀ a t : Doc, p.isPrefixOf (a ++ '\n' :: t) = true → p.isPrefixOf a = true := by
  induction p with
  | nil => intro a t _; exact nil_isPrefixOf _
  | cons b p' ih =>
    intro a t h
    cases a with
    | nil =>
      rw [List.nil_append, isPrefixOf_cons_cons] at h
      rcases Bool.and_eq_true_iff.mp h with ⟨h1, _⟩
      exact absurd (by simpa using h1) (hp b (List.mem_cons_self _ _))
    | cons c a' =>
      rw [List.cons_append, isPrefixOf_cons_cons] at h
      rcases Bool.and_eq_true_iff.mp h with ⟨h1, h2⟩
      rw [isPrefixOf_cons_cons, h1]
      exact ih (fun x hx => hp x (List.mem_cons_of_mem _ hx)) a' t h2

theorem drop_append_self (p : Doc) : ∀ x : Doc, (p ++ x).drop p.length = x := by
  induction p with
  | nil => intro x; rfl
  | cons a p' ih => intro x; simp [ih x]

theorem hasSub_cons (pat : Doc) (c : Char) (cs : Doc) :
    hasSub pat (c :: cs) = (pat.isPrefixOf (c :: cs) || hasSub pat cs) := rfl

theorem hasSub_of_isPrefixOf {pat s : Doc} (hne : pat ≠ []) (h : pat.isPrefixOf s = true) :
    hasSub pat s = true := by
  cases s with
  | nil =>
    cases pat with
    | nil => exact absurd rfl hne
    | cons a p => exact absurd h (by simp [List.isPrefixOf])
  | cons c cs => simp [hasSub_cons, h]

theorem hasSub_self {pat : Doc} (hne : pat ≠ []) : hasSub pat pat = true := by
  apply hasSub_of_isPrefixOf hne
  have h := isPrefixOf_self_append pat []
  rw [List.append_nil] at h
  exact h

theorem hasSub_cons_tail {pat : Doc} {cs : Doc} (c : Char) (h : hasSub pat cs = true) :
    hasSub pat (c :: cs) = true := by
  simp [hasSub_cons, h]

theorem not_hasSub_head {pat : Doc} {c : Char} {cs : Doc}
    (h : hasSub pat (c :: cs) = false) : pat.isPrefixOf (c :: cs) = false := by
  rw [hasSub_cons] at h
  exact (Bool.or_eq_false_iff.mp h).1

theorem not_hasSub_tail {pat : Doc} {c : Char} {cs : Doc}
    (h : hasSub pat (c :: cs) = false) : hasSub pat cs = false := by
  rw [hasSub_cons] at h
  exact (Bool.or_eq_false_iff.mp h).2

theorem hasSub_append_nl {pat : Doc} (hp : noNl pat) (hne : pat ≠ []) :
    ∀ a b : Doc, hasSub pat (a ++ '\n' :: b) = (hasSub pat a || hasSub pat b) := by
  intro a b
  induction a with
  | nil =>
    rw [List.nil_append, hasSub_cons]
    have h1 : pat.isPrefixOf ('\n' :: b) = false := by
      cases hq : pat.isPrefixOf ('\n' :: b) with
      | false => rfl
      | true =>
        cases pat with
        | nil => exact absurd rfl hne
        | cons x p' =>
          rw [isPrefixOf_cons_cons] at hq
          rcases Bool.and_eq_true_iff.mp hq with ⟨hx, _⟩
          exact absurd (by simpa using hx) (hp x (List.mem_cons_self _ _))
    rw [h1]
    have h2 : hasSub pat [] = false := by
      cases pat with
      | nil => exact absurd rfl hne
      | cons x p' => rfl
    simp [h2]
  | cons c a' ih =>
    rw [List.cons_append, hasSub_cons, hasSub_cons pat c a']
    have h1 : pat.isPrefixOf (c :: (a' ++ '\n' :: b)) = pat.isPrefixOf (c :: a') := by
      cases hq : pat.isPrefixOf (c :: a') with
      | true =>
        have := isPrefixOf_append_weaken pat (c :: a') ('\n' :: b) hq
        simpa using this
      | false =>
        cases hq2 : pat.isPrefixOf (c :: (a' ++ '\n' :: b)) with
        | false => rfl
        | true =>
          have := isPrefixOf_append_nl hp (c :: a') b (by simpa using hq2)
          rw [this] at hq
          exact absurd hq (by simp)
    rw [h1, ih]
    cases pat.isPrefixOf (c :: a') <;> cases hasSub pat a' <;> cases hasSub pat b <;> rfl

theorem hasSub_joinNl {pat : Doc} (hp : noNl pat) (hne : pat ≠ []) :
    ∀ ls : List Line, hasSub pat (joinNl ls) = ls.any (fun l => hasSub pat l) := by
  intro ls
  induction ls with
  | nil =>
    have h2 : hasSub pat [] = false := by
      cases pat with
      | nil => exact absurd rfl hne
      | cons x p' => rfl
    simp [joinNl, h2]
  | cons l rest ih =>
    cases rest with
    | nil => simp [joinNl, List.any_cons]
    | cons l' rest' =>
      simp only [joinNl]
      rw [hasSub_append_nl hp hne, ih]
      simp [List.any_cons]

/-! ### The marker-stripping passes of `clean_and_fix_file` (`clean_fix.py`)

`re.sub(r'\{\% raw \%\}\n?', '', content)` and
`re.sub(r'\n?\{\% endraw \%\}', '', content)` are modelled as left-to-right
scans that remove each leftmost match and continue after it, which is
exactly the semantics of a global `re.sub` with these patterns.  The
functions take an explicit fuel argument (bounded by the input length) so
that they are structurally recursive and computable by `decide`. -/

def dropNl : Doc → Doc
  | [] => []
  | c :: t => if c = '\n' then t else c :: t

theorem dropNl_length_le (s : Doc) : (dropNl s).length ≤ s.length := by
  cases s with
  | nil => exact Nat.le_refl _
  | cons c t =>
    simp only [dropNl]
    split
    · simp
    · exact Nat.le_refl _

def stripRawF : Nat → Doc → Doc
  | 0, s => s
  | _ + 1, [] => []
  | n + 1, c :: cs =>
    if rawMark.isPrefixOf (c :: cs) then stripRawF n (dropNl ((c :: cs).drop rawMark.length))
    else c :: stripRawF n cs

/-- Model of `re.sub(r'\{\% raw \%\}\n?', '', content)`. -/
def stripRaw (s : Doc) : Doc := stripRawF s.length s

def stripEndF : Nat → Doc → Doc
  | 0, s => s
  | _ + 1, [] => []
  | n + 1, c :: cs =>
    if c = '\n' && endMark.isPrefixOf cs then stripEndF n (cs.drop endMark.length)
    else if endMark.isPrefixOf (c :: cs) then stripEndF n ((c :: cs).drop endMark.length)
    else c :: stripEndF n cs

/-- Model of `re.sub(r'\n?\{\% endraw \%\}', '', content)`. -/
def stripEnd (s : Doc) : Doc := stripEndF s.length s

/-- Model of `clean_and_fix_file` from `clean_fix.py`: strip all existing
raw/endraw markers from the whole text, then re-run the block-level
wrapping transform. -/
def clean_and_fix (s : Doc) : Doc := fix_template_literals (stripEnd (stripRaw s))

theorem rawMark_eq :
    rawMark = ['\x7b', '%', ' ', 'r', 'a', 'w', ' ', '%', '\x7d'] := by decide

theorem endMark_eq :
    endMark = ['\x7b', '%', ' ', 'e', 'n', 'd', 'r', 'a', 'w', ' ', '%', '\x7d'] := by decide

theorem stripRawF_congr : ∀ n m : Nat, ∀ s : Doc,
    s.length ≤ n → s.length ≤ m → stripRawF n s = stripRawF m s := by
  intro n
  induction n with
  | zero =>
    intro m s hn _
    have hz : s = [] := List.eq_nil_of_length_eq_zero (Nat.le_zero.mp hn)
    subst hz
    cases m <;> rfl
  | succ n ih =>
    intro m s hn hm
    cases s with
    | nil => cases m <;> rfl
    | cons c cs =>
      cases m with
      | zero => simp at hm
      | succ m' =>
        simp only [stripRawF]
        have hlen : ((c :: cs).drop rawMark.length).length ≤ cs.length := by
          simp [List.length_drop, rawMark_eq]
        have hd : (dropNl ((c :: cs).drop rawMark.length)).length ≤ cs.length :=
          Nat.le_trans (dropNl_length_le _) hlen
        split
        · exact ih m' _ (Nat.le_trans hd (Nat.lt_succ_iff.mp hn))
            (Nat.le_trans hd (Nat.lt_succ_iff.mp hm))
        · rw [ih m' cs (Nat.lt_succ_iff.mp hn) (Nat.lt_succ_iff.mp hm)]

theorem stripRaw_nil : stripRaw [] = [] := rfl

theorem stripRaw_cons (c : Char) (cs : Doc) :
    stripRaw (c :: cs) =
      if rawMark.isPrefixOf (c :: cs) then stripRaw (dropNl ((c :: cs).drop rawMark.length))
      else c :: stripRaw cs := by
  have h1 : stripRaw (c :: cs) = stripRawF (cs.length + 1) (c :: cs) := rfl
  rw [h1]
  simp only [stripRawF]
  have hlen : ((c :: cs).drop rawMark.length).length ≤ cs.length := by
    simp [List.length_drop, rawMark_eq]
  have hd : (dropNl ((c :: cs).drop rawMark.length)).length ≤ cs.length :=
    Nat.le_trans (dropNl_length_le _) hlen
  split
  · exact stripRawF_congr _ _ _ hd (Nat.le_refl _)
  · rfl

theorem stripEndF_congr : ∀ n m : Nat, ∀ s : Doc,
    s.length ≤ n → s.length ≤ m → stripEndF n s = stripEndF m s := by
  intro n
  induction n with
  | zero =>
    intro m s hn _
    have hz : s = [] := List.eq_nil_of_length_eq_zero (Nat.le_zero.mp hn)
    subst hz
    cases m <;> rfl
  | succ n ih =>
    intro m s hn hm
    cases s with
    | nil => cases m <;> rfl
    | cons c cs =>
      cases m with
      | zero => simp at hm
      | succ m' =>
        simp only [stripEndF]
        have h1 : (cs.drop endMark.length).length ≤ cs.length := by
          simp [List.length_drop]
        have h2 : ((c :: cs).drop endMark.length).length ≤ cs.length := by
          simp [List.length_drop, endMark_eq]
        split
        · exact ih m' _ (Nat.le_trans h1 (Nat.lt_succ_iff.mp hn))
            (Nat.le_trans h1 (Nat.lt_succ_iff.mp hm))
        · split
          · exact ih m' _ (Nat.le_trans h2 (Nat.lt_succ_iff.mp hn))
              (Nat.le_trans h2 (Nat.lt_succ_iff.mp hm))
          · rw [ih m' cs (Nat.lt_succ_iff.mp hn) (Nat.lt_succ_iff.mp hm)]

theorem stripEnd_nil : stripEnd [] = [] := rfl

theorem stripEnd_cons (c : Char) (cs : Doc) :
    stripEnd (c :: cs) =
      if c = '\n' && endMark.isPrefixOf cs then stripEnd (cs.drop endMark.length)
      else if endMark.isPrefixOf (c :: cs) then stripEnd ((c :: cs).drop endMark.length)
      else c :: stripEnd cs := by
  have h1 : stripEnd (c :: cs) = stripEndF (cs.length + 1) (c :: cs) := rfl
  rw [h1]
  simp only [stripEndF]
  have hl1 : (cs.drop endMark.length).length ≤ cs.length := by
    simp [List.length_drop]
  have hl2 : ((c :: cs).drop endMark.length).length ≤ cs.length := by
    simp [List.length_drop, endMark_eq]
  split
  · exact stripEndF_congr _ _ _ hl1 (Nat.le_refl _)
  · split
    · exact stripEndF_congr _ _ _ hl2 (Nat.le_refl _)
    · rfl

/-! ### Basic facts about the concrete markers -/

theorem noNl_rawMark : noNl rawMark := by decide

theorem noNl_endMark : noNl endMark := by decide

theorem noNl_trigger : noNl trigger := by decide

theorem rawMark_ne_nil : rawMark ≠ [] := by decide

theorem endMark_ne_nil : endMark ≠ [] := by decide

theorem trigger_ne_nil : trigger ≠ [] := by decide

theorem isDelim_rawLine : isDelim rawLine = false := by decide

theorem isDelim_endLine : isDelim endLine = false := by decide

theorem hasSub_rawMark_endLine : hasSub rawMark endLine = false := by decide

theorem hasSub_endMark_rawLine : hasSub endMark rawLine = false := by decide

theorem hasSub_trigger_rawLine : hasSub trigger rawLine = false := by decide

theorem hasSub_trigger_endLine : hasSub trigger endLine = false := by decide

theorem rawLine_ne_endLine : rawLine ≠ endLine := by decide

/-- A line that does not contain the opening marker as a substring is not the
opening marker line. -/
theorem ne_rawLine_of_not_hasSub {l : Line} (h : hasSub rawMark l = false) : l ≠ rawLine := by
  intro he
  subst he
  rw [show hasSub rawMark rawLine = true from by decide] at h
  exact absurd h (by simp)

theorem ne_endLine_of_not_hasSub {l : Line} (h : hasSub endMark l = false) : l ≠ endLine := by
  intro he
  subst he
  rw [show hasSub endMark endLine = true from by decide] at h
  exact absurd h (by simp)

theorem rawMark_not_prefix_nl (t : Doc) : rawMark.isPrefixOf ('\n' :: t) = false := by
  rw [rawMark_eq, isPrefixOf_cons_cons]
  rw [show ('\x7b' == '\n') = false from by decide]
  rfl

theorem endMark_not_prefix_nl (t : Doc) : endMark.isPrefixOf ('\n' :: t) = false := by
  rw [endMark_eq, isPrefixOf_cons_cons]
  rw [show ('\x7b' == '\n') = false from by decide]
  rfl

/-! ### Behaviour of the strip passes -/

theorem stripRaw_not_has : ∀ s : Doc, hasSub rawMark s = false → stripRaw s = s := by
  intro s
  induction s with
  | nil => intro _; rfl
  | cons c cs ih =>
    intro h
    rw [stripRaw_cons, if_neg (by simp [not_hasSub_head h]), ih (not_hasSub_tail h)]

theorem stripRawF_length_le : ∀ n : Nat, ∀ s : Doc, (stripRawF n s).length ≤ s.length := by
  intro n
  induction n with
  | zero => intro s; exact Nat.le_refl _
  | succ n ih =>
    intro s
    cases s with
    | nil => simp [stripRawF]
    | cons c cs =>
      simp only [stripRawF]
      split
      · have h1 : ((c :: cs).drop rawMark.length).length ≤ cs.length := by
          simp [List.length_drop, rawMark_eq]
        have h2 := Nat.le_trans (ih (dropNl ((c :: cs).drop rawMark.length)))
          (Nat.le_trans (dropNl_length_le _) h1)
        exact Nat.le_trans h2 (Nat.le_succ _)
      · simpa using ih cs

theorem stripRaw_length_le (s : Doc) : (stripRaw s).length ≤ s.length :=
  stripRawF_length_le s.length s

theorem stripRaw_length_lt : ∀ s : Doc, hasSub rawMark s = true → (stripRaw s).length < s.length := by
  intro s
  induction s with
  | nil =>
    intro h
    rw [show hasSub rawMark [] = false from by decide] at h
    exact absurd h (by simp)
  | cons c cs ih =>
    intro h
    rw [stripRaw_cons]
    split
    · rename_i hp
      have h1 : ((c :: cs).drop rawMark.length).length ≤ cs.length := by
        simp [List.length_drop, rawMark_eq]
      have h2 := Nat.le_trans (stripRaw_length_le (dropNl ((c :: cs).drop rawMark.length)))
        (Nat.le_trans (dropNl_length_le _) h1)
      exact Nat.lt_succ_of_le h2
    · rename_i hp
      have hcs : hasSub rawMark cs = true := by
        rw [hasSub_cons] at h
        rcases Bool.or_eq_true_iff.mp h with h' | h'
        · exact absurd h' hp
        · exact h'
      simpa using ih hcs

theorem stripRaw_eq_self_iff (s : Doc) : stripRaw s = s ↔ hasSub rawMark s = false := by
  constructor
  · intro h
    cases hq : hasSub rawMark s with
    | false => rfl
    | true =>
      have := stripRaw_length_lt s hq
      rw [h] at this
      exact absurd this (Nat.lt_irrefl _)
  · exact stripRaw_not_has s

theorem stripEnd_not_has : ∀ s : Doc, hasSub endMark s = false → stripEnd s = s := by
  intro s
  induction s with
  | nil => intro _; rfl
  | cons c cs ih =>
    intro h
    have h2 : endMark.isPrefixOf cs = false := by
      cases hq : endMark.isPrefixOf cs with
      | false => rfl
      | true =>
        have := hasSub_of_isPrefixOf endMark_ne_nil hq
        have h3 := not_hasSub_tail h
        cases cs with
        | nil => rw [show endMark.isPrefixOf ([] : Doc) = false from by decide] at hq; exact absurd hq (by simp)
        | cons d ds =>
          rw [this] at h3
          exact absurd h3 (by simp)
    rw [stripEnd_cons, if_neg (by simp [h2]), if_neg (by simp [not_hasSub_head h]),
      ih (not_hasSub_tail h)]

theorem stripEndF_length_le : ∀ n : Nat, ∀ s : Doc, (stripEndF n s).length ≤ s.length := by
  intro n
  induction n with
  | zero => intro s; exact Nat.le_refl _
  | succ n ih =>
    intro s
    cases s with
    | nil => simp [stripEndF]
    | cons c cs =>
      simp only [stripEndF]
      split
      · have h1 : (cs.drop endMark.length).length ≤ cs.length := by
          simp [List.length_drop]
        exact Nat.le_trans (Nat.le_trans (ih _) h1) (Nat.le_succ _)
      · split
        · have h1 : ((c :: cs).drop endMark.length).length ≤ cs.length := by
            simp [List.length_drop, endMark_eq]
          exact Nat.le_trans (Nat.le_trans (ih _) h1) (Nat.le_succ _)
        · simpa using ih cs

theorem stripEnd_length_le (s : Doc) : (stripEnd s).length ≤ s.length :=
  stripEndF_length_le s.length s

theorem stripEnd_length_lt : ∀ s : Doc, hasSub endMark s = true → (stripEnd s).length < s.length := by
  intro s
  induction s with
  | nil =>
    intro h
    rw [show hasSub endMark [] = false from by decide] at h
    exact absurd h (by simp)
  | cons c cs ih =>
    intro h
    rw [stripEnd_cons]
    split
    · have h1 : (cs.drop endMark.length).length ≤ cs.length := by
        simp [List.length_drop]
      exact Nat.lt_succ_of_le (Nat.le_trans (stripEnd_length_le _) h1)
    · split
      · have h1 : ((c :: cs).drop endMark.length).length ≤ cs.length := by
          simp [List.length_drop, endMark_eq]
        exact Nat.lt_succ_of_le (Nat.le_trans (stripEnd_length_le _) h1)
      · rename_i hp1 hp2
        have hcs : hasSub endMark cs = true := by
          rw [hasSub_cons] at h
          rcases Bool.or_eq_true_iff.mp h with h' | h'
          · exact absurd h' hp2
          · exact h'
        simpa using ih hcs

theorem stripEnd_eq_self_iff (s : Doc) : stripEnd s = s ↔ hasSub endMark s = false := by
  constructor
  · intro h
    cases hq : hasSub endMark s with
    | false => rfl
    | true =>
      have := stripEnd_length_lt s hq
      rw [h] at this
      exact absurd this (Nat.lt_irrefl _)
  · exact stripEnd_not_has s

/-! ### Line-level behaviour of the strip passes

When the marker substrings occur only as whole inserted lines, the two
character-level `re.sub` scans behave exactly like deleting those lines. -/

theorem stripRaw_nlcons (t : Doc) : stripRaw ('\n' :: t) = '\n' :: stripRaw t := by
  rw [stripRaw_cons, if_neg (by simp [rawMark_not_prefix_nl])]

theorem stripRaw_walk (l : Line) (hl : noNl l) (hs : hasSub rawMark l = false) :
    ∀ t : Doc, stripRaw (l ++ '\n' :: t) = l ++ '\n' :: stripRaw t := by
  induction l with
  | nil => intro t; simp [stripRaw_nlcons]
  | cons c l' ih =>
    intro t
    rw [List.cons_append, stripRaw_cons]
    have hnp : rawMark.isPrefixOf (c :: (l' ++ '\n' :: t)) = false := by
      cases hq : rawMark.isPrefixOf (c :: (l' ++ '\n' :: t)) with
      | false => rfl
      | true =>
        have h1 : rawMark.isPrefixOf ((c :: l') ++ '\n' :: t) = true := by
          rw [List.cons_append]; exact hq
        have h2 := isPrefixOf_append_nl noNl_rawMark (c :: l') t h1
        have h3 := hasSub_of_isPrefixOf rawMark_ne_nil h2
        rw [hs] at h3
        exact absurd h3 (by simp)
    rw [if_neg (by simp [hnp])]
    rw [ih (fun x hx => hl x (List.mem_cons_of_mem _ hx)) (not_hasSub_tail hs)]
    rfl

theorem stripRaw_marker_head (x : Doc) : stripRaw (rawMark ++ x) = stripRaw (dropNl x) := by
  have hx : rawMark ++ x = '\x7b' :: (['%', ' ', 'r', 'a', 'w', ' ', '%', '\x7d'] ++ x) := by
    rw [rawMark_eq]; rfl
  have hp : rawMark.isPrefixOf ('\x7b' :: (['%', ' ', 'r', 'a', 'w', ' ', '%', '\x7d'] ++ x)) = true := by
    rw [← hx]; exact isPrefixOf_self_append _ _
  have hd : ('\x7b' :: (['%', ' ', 'r', 'a', 'w', ' ', '%', '\x7d'] ++ x)).drop rawMark.length = x := by
    rw [← hx]; exact drop_append_self _ _
  rw [hx, stripRaw_cons, if_pos hp, hd]

theorem stripEnd_nl_marker (y : Doc) : stripEnd ('\n' :: (endMark ++ y)) = stripEnd y := by
  have hc : ('\n' = '\n' && endMark.isPrefixOf (endMark ++ y)) = true := by
    simp [isPrefixOf_self_append]
  rw [stripEnd_cons, if_pos hc, drop_append_self]

theorem stripEnd_nlcons (t : Doc) (h : endMark.isPrefixOf t = false) :
    stripEnd ('\n' :: t) = '\n' :: stripEnd t := by
  rw [stripEnd_cons, if_neg (by simp [h]), if_neg (by simp [endMark_not_prefix_nl])]

theorem stripEnd_walk (l : Line) (hl : noNl l) (hs : hasSub endMark l = false) :
    ∀ t : Doc, stripEnd (l ++ '\n' :: t) = l ++ stripEnd ('\n' :: t) := by
  induction l with
  | nil => intro t; simp
  | cons c l' ih =>
    intro t
    rw [List.cons_append, stripEnd_cons]
    have hc1 : c ≠ '\n' := hl c (List.mem_cons_self _ _)
    have hnp : endMark.isPrefixOf (c :: (l' ++ '\n' :: t)) = false := by
      cases hq : endMark.isPrefixOf (c :: (l' ++ '\n' :: t)) with
      | false => rfl
      | true =>
        have h1 : endMark.isPrefixOf ((c :: l') ++ '\n' :: t) = true := by
          rw [List.cons_append]; exact hq
        have h2 := isPrefixOf_append_nl noNl_endMark (c :: l') t h1
        have h3 := hasSub_of_isPrefixOf endMark_ne_nil h2
        rw [hs] at h3
        exact absurd h3 (by simp)
    rw [if_neg (by simp [hc1]), if_neg (by simp [hnp])]
    rw [ih (fun x hx => hl x (List.mem_cons_of_mem _ hx)) (not_hasSub_tail hs)]
    rfl

/-- Deleting every line equal to the opening marker line. -/
def delRaw : List Line → List Line
  | [] => []
  | l :: ls => if l = rawLine then delRaw ls else l :: delRaw ls

/-- Deleting every line equal to the closing marker line. -/
def delEnd : List Line → List Line
  | [] => []
  | l :: ls => if l = endLine then delEnd ls else l :: delEnd ls

theorem getLast?_cons_cons' (l r : Line) (rest : List Line) :
    (l :: r :: rest).getLast? = (r :: rest).getLast? := by
  simp [List.getLast?_cons_cons]

theorem delRaw_ne_nil : ∀ ls : List Line, ls ≠ [] → ls.getLast? ≠ some rawLine →
    delRaw ls ≠ [] := by
  intro ls
  induction ls with
  | nil => intro h _; exact absurd rfl h
  | cons l rest ih =>
    intro _ hlast
    cases rest with
    | nil =>
      have hl : l ≠ rawLine := by
        intro he
        exact hlast (by simp [he])
      simp [delRaw, hl]
    | cons r rest' =>
      rw [getLast?_cons_cons'] at hlast
      by_cases hl : l = rawLine
      · simp only [delRaw, if_pos hl]
        exact ih (by simp) hlast
      · simp [delRaw, hl]

/-- Joining a list of lines with a leading newline separator, empty when the
list is empty. -/
def nlJoin : List Line → Doc
  | [] => []
  | l :: ls => '\n' :: joinNl (l :: ls)

theorem joinNl_cons_nlJoin (l : Line) (d : List Line) : joinNl (l :: d) = l ++ nlJoin d := by
  cases d with
  | nil => simp [joinNl, nlJoin]
  | cons d0 ds => rfl

/-- The raw-marker strip pass, applied to lines joined by newlines, deletes
exactly the whole lines equal to the opening marker (provided the marker
substring occurs only as such whole lines and not as the final line). -/
theorem stripRaw_joinNl : ∀ ls : List Line,
    (∀ l ∈ ls, l = rawLine ∨ (noNl l ∧ hasSub rawMark l = false)) →
    ls.getLast? ≠ some rawLine →
    stripRaw (joinNl ls) = joinNl (delRaw ls) := by
  intro ls
  induction ls with
  | nil => intro _ _; rfl
  | cons l rest ih =>
    intro hok hlast
    by_cases hl : l = rawLine
    · subst hl
      cases rest with
      | nil => exact absurd (by simp) hlast
      | cons r rest' =>
        rw [getLast?_cons_cons'] at hlast
        have hstep : joinNl (rawLine :: r :: rest') = rawMark ++ ('\n' :: joinNl (r :: rest')) := rfl
        rw [hstep, stripRaw_marker_head]
        rw [show dropNl ('\n' :: joinNl (r :: rest')) = joinNl (r :: rest') from by simp [dropNl]]
        rw [ih (fun x hx => hok x (List.mem_cons_of_mem _ hx)) hlast]
        simp [delRaw]
    · rcases hok l (List.mem_cons_self _ _) with he | ⟨hnl, hfree⟩
      · exact absurd he hl
      · cases rest with
        | nil =>
          show stripRaw (joinNl [l]) = joinNl (delRaw [l])
          rw [show joinNl [l] = l from rfl, stripRaw_not_has l hfree]
          simp [delRaw, hl, joinNl]
        | cons r rest' =>
          rw [getLast?_cons_cons'] at hlast
          have hstep : joinNl (l :: r :: rest') = l ++ '\n' :: joinNl (r :: rest') := rfl
          rw [hstep, stripRaw_walk l hnl hfree]
          rw [ih (fun x hx => hok x (List.mem_cons_of_mem _ hx)) hlast]
          have hne2 : delRaw (r :: rest') ≠ [] := delRaw_ne_nil _ (by simp) hlast
          rw [show delRaw (l :: r :: rest') = l :: delRaw (r :: rest') from by simp [delRaw, hl]]
          rcases hd : delRaw (r :: rest') with _ | ⟨d, ds⟩
          · exact absurd hd hne2
          · rfl

/-- The endraw-marker strip pass at line level: part one handles a document
starting with a non-marker line, part two a document fragment starting with
a newline separator. -/
theorem stripEnd_joinNl_aux : ∀ ls : List Line,
    (∀ l ∈ ls, l = endLine ∨ (noNl l ∧ hasSub endMark l = false)) →
    ((ls.head? ≠ some endLine → stripEnd (joinNl ls) = joinNl (delEnd ls)) ∧
     (ls ≠ [] → stripEnd ('\n' :: joinNl ls) = nlJoin (delEnd ls))) := by
  intro ls
  induction ls with
  | nil =>
    intro _
    exact ⟨fun _ => rfl, fun h => absurd rfl h⟩
  | cons l rest ih =>
    intro hok
    have ihr := ih (fun x hx => hok x (List.mem_cons_of_mem _ hx))
    have hS1 : (l :: rest).head? ≠ some endLine →
        stripEnd (joinNl (l :: rest)) = joinNl (delEnd (l :: rest)) := by
      intro hhead
      have hlne : l ≠ endLine := by
        intro he
        exact hhead (by simp [he])
      rcases hok l (List.mem_cons_self _ _) with he | ⟨hnl, hfree⟩
      · exact absurd he hlne
      · cases rest with
        | nil =>
          rw [show joinNl [l] = l from rfl, stripEnd_not_has l hfree]
          simp [delEnd, hlne, joinNl]
        | cons r rest' =>
          have hstep : joinNl (l :: r :: rest') = l ++ '\n' :: joinNl (r :: rest') := rfl
          rw [hstep, stripEnd_walk l hnl hfree]
          rw [ihr.2 (by simp)]
          rw [show delEnd (l :: r :: rest') = l :: delEnd (r :: rest') from by simp [delEnd, hlne]]
          rw [joinNl_cons_nlJoin]
    have hS2 : (l :: rest) ≠ [] →
        stripEnd ('\n' :: joinNl (l :: rest)) = nlJoin (delEnd (l :: rest)) := by
      intro _
      by_cases hle : l = endLine
      · subst hle
        cases rest with
        | nil =>
          rw [show joinNl [endLine] = endMark ++ [] from by simp [joinNl, endLine]]
          rw [stripEnd_nl_marker, stripEnd_nil]
          simp [delEnd, nlJoin]
        | cons r rest' =>
          have hstep : joinNl (endLine :: r :: rest') = endMark ++ ('\n' :: joinNl (r :: rest')) := rfl
          rw [hstep, stripEnd_nl_marker]
          rw [ihr.2 (by simp)]
          simp [delEnd]
      · rcases hok l (List.mem_cons_self _ _) with he | ⟨hnl, hfree⟩
        · exact absurd he hle
        · have hpf : endMark.isPrefixOf (joinNl (l :: rest)) = false := by
            cases hq : endMark.isPrefixOf (joinNl (l :: rest)) with
            | false => rfl
            | true =>
              cases rest with
              | nil =>
                rw [show joinNl [l] = l from rfl] at hq
                have h3 := hasSub_of_isPrefixOf endMark_ne_nil hq
                rw [hfree] at h3
                exact absurd h3 (by simp)
              | cons r rest' =>
                rw [show joinNl (l :: r :: rest') = l ++ '\n' :: joinNl (r :: rest') from rfl] at hq
                have h2 := isPrefixOf_append_nl noNl_endMark l _ hq
                have h3 := hasSub_of_isPrefixOf endMark_ne_nil h2
                rw [hfree] at h3
                exact absurd h3 (by simp)
          rw [stripEnd_nlcons _ hpf]
          rw [hS1 (by intro he; exact hle (by simpa using he))]
          rw [show delEnd (l :: rest) = l :: delEnd rest from by simp [delEnd, hle]]
          rfl
    exact ⟨hS1, hS2⟩

theorem stripEnd_joinNl (ls : List Line)
    (hok : ∀ l ∈ ls, l = endLine ∨ (noNl l ∧ hasSub endMark l = false))
    (hhead : ls.head? ≠ some endLine) :
    stripEnd (joinNl ls) = joinNl (delEnd ls) :=
  (stripEnd_joinNl_aux ls hok).1 hhead

/-! ### Block structure of a document

`parseBlocks` decomposes a list of lines into segments: lines outside any
fence, properly closed fenced blocks, and a final unterminated fence, by
the same state machine that the scripts use.  `renderSeg` is the per-block
declarative description of the transform from the specification: a closed
block whose content contains the trigger gets exactly one opening marker
line immediately before its content and one closing marker line
immediately after it; other closed blocks and outside lines are emitted
unchanged.  (The unterminated-fence case follows the code, which drops the
pending lines.) -/

inductive Seg : Type where
  | out (l : Line)
  | closed (o : Line) (c : List Line) (d : Line)
  | tail (o : Line) (c : List Line)
deriving DecidableEq

def parseLoop : List Line → Option (Line × List Line) → List Seg
  | [], none => []
  | [], some (o, acc) => [.tail o acc]
  | l :: rest, none =>
    if isDelim l then parseLoop rest (some (l, []))
    else .out l :: parseLoop rest none
  | l :: rest, some (o, acc) =>
    if isDelim l then .closed o acc l :: parseLoop rest none
    else parseLoop rest (some (o, acc ++ [l]))

def parseBlocks (ls : List Line) : List Seg := parseLoop ls none

/-- The trigger test applied to a block's collected lines, exactly as the
scripts compute it: `'${' in '\n'.join(code_block_lines)`. -/
def trigL (c : List Line) : Bool := hasSub trigger (joinNl c)

/-- Wrapping a closed block's content per the specification: one opening
marker line immediately before and one closing marker line immediately
after, exactly when the content contains the trigger substring. -/
def wrapContent (c : List Line) : List Line :=
  if trigL c then rawLine :: c ++ [endLine] else c

def renderWith (m : List Line → List Line) : Seg → List Line
  | .out l => [l]
  | .closed o c d => o :: m c ++ [d]
  | .tail o _ => [o]

def flatSegs (f : Seg → List Line) : List Seg → List Line
  | [] => []
  | s :: rest => f s ++ flatSegs f rest

/-- The specification-style rendering of the block decomposition. -/
def renderSeg : Seg → List Line := renderWith wrapContent

/-- Re-assembling the exact input lines from the block decomposition. -/
def unparseFull : Seg → List Line
  | .out l => [l]
  | .closed o c d => o :: c ++ [d]
  | .tail o c => o :: c

def mapSeg (m : List Line → List Line) : Seg → Seg
  | .out l => .out l
  | .closed o c d => .closed o (m c) d
  | .tail o _ => .tail o []

/-- The scanning loop of the scripts agrees with the declarative per-block
rendering of the parse. -/
theorem fixLoop_renders : ∀ ls : List Line,
    (fixLoop ls false [] = flatSegs renderSeg (parseLoop ls none)) ∧
    (∀ o acc, o :: fixLoop ls true acc = flatSegs renderSeg (parseLoop ls (some (o, acc)))) := by
  intro ls
  induction ls with
  | nil =>
    constructor
    · rfl
    · intro o acc; rfl
  | cons l rest ih =>
    constructor
    · cases hd : isDelim l with
      | true =>
        simp only [fixLoop, parseLoop, hd, if_true]
        exact ih.2 l []
      | false =>
        simp only [fixLoop, parseLoop, hd, Bool.false_eq_true, if_false, flatSegs, renderSeg,
          renderWith]
        rw [ih.1]
        rfl
    · intro o acc
      cases hd : isDelim l with
      | true =>
        simp only [fixLoop, parseLoop, hd, if_true, flatSegs]
        rw [← ih.1]
        simp only [renderSeg, renderWith, wrapContent, trigL]
        split
        · simp [List.append_assoc]
        · simp [List.append_assoc]
      | false =>
        simp only [fixLoop, parseLoop, hd, Bool.false_eq_true, if_false]
        exact ih.2 o (acc ++ [l])

theorem fixLines_renders (ls : List Line) :
    fixLines ls = flatSegs renderSeg (parseBlocks ls) :=
  (fixLoop_renders ls).1

/-- The block decomposition loses no line: flattening it with the full
un-parser reproduces the input lines exactly. -/
theorem parseLoop_unparse : ∀ ls : List Line,
    (flatSegs unparseFull (parseLoop ls none) = ls) ∧
    (∀ o acc, flatSegs unparseFull (parseLoop ls (some (o, acc))) = o :: acc ++ ls) := by
  intro ls
  induction ls with
  | nil =>
    constructor
    · rfl
    · intro o acc
      simp [parseLoop, flatSegs, unparseFull]
  | cons l rest ih =>
    constructor
    · cases hd : isDelim l with
      | true =>
        simp only [parseLoop, hd, if_true]
        rw [ih.2 l []]
        rfl
      | false =>
        simp only [parseLoop, hd, Bool.false_eq_true, if_false, flatSegs, unparseFull]
        rw [ih.1]
        rfl
    · intro o acc
      cases hd : isDelim l with
      | true =>
        simp only [parseLoop, hd, if_true, flatSegs, unparseFull]
        rw [ih.1]
        simp [List.append_assoc]
      | false =>
        simp only [parseLoop, hd, Bool.false_eq_true, if_false]
        rw [ih.2 o (acc ++ [l])]
        simp [List.append_assoc]

theorem parseBlocks_unparse (ls : List Line) :
    flatSegs unparseFull (parseBlocks ls) = ls :=
  (parseLoop_unparse ls).1

/-- Well-formedness of a segment produced by the parse: delimiters are
delimiter lines and collected content lines are not delimiters. -/
def segWF : Seg → Prop
  | .out l => isDelim l = false
  | .closed o c d => isDelim o = true ∧ isDelim d = true ∧ ∀ x ∈ c, isDelim x = false
  | .tail o c => isDelim o = true ∧ ∀ x ∈ c, isDelim x = false

/-- An unterminated-fence segment can only occur in final position. -/
def noEarlyTail : List Seg → Prop
  | [] => True
  | .tail _ _ :: rest => rest = []
  | _ :: rest => noEarlyTail rest

theorem parseLoop_WF : ∀ ls : List Line,
    ((∀ s ∈ parseLoop ls none, segWF s) ∧ noEarlyTail (parseLoop ls none)) ∧
    (∀ o acc, isDelim o = true → (∀ x ∈ acc, isDelim x = false) →
      (∀ s ∈ parseLoop ls (some (o, acc)), segWF s) ∧
        noEarlyTail (parseLoop ls (some (o, acc)))) := by
  intro ls
  induction ls with
  | nil =>
    constructor
    · exact ⟨by simp [parseLoop], by simp [parseLoop, noEarlyTail]⟩
    · intro o acc ho hacc
      constructor
      · intro s hs
        simp [parseLoop] at hs
        subst hs
        exact ⟨ho, hacc⟩
      · simp [parseLoop, noEarlyTail]
  | cons l rest ih =>
    constructor
    · cases hd : isDelim l with
      | true =>
        simp only [parseLoop, hd, if_true]
        exact ih.2 l [] hd (by simp)
      | false =>
        simp only [parseLoop, hd, Bool.false_eq_true, if_false]
        constructor
        · intro s hs
          rcases List.mem_cons.mp hs with h | h
          · subst h; exact hd
          · exact ih.1.1 s h
        · simp only [noEarlyTail]
          exact ih.1.2
    · intro o acc ho hacc
      cases hd : isDelim l with
      | true =>
        simp only [parseLoop, hd, if_true]
        constructor
        · intro s hs
          rcases List.mem_cons.mp hs with h | h
          · subst h; exact ⟨ho, hd, hacc⟩
          · exact ih.1.1 s h
        · simp only [noEarlyTail]
          exact ih.1.2
      | false =>
        simp only [parseLoop, hd, Bool.false_eq_true, if_false]
        exact ih.2 o (acc ++ [l]) ho (by
          intro x hx
          rcases List.mem_append.mp hx with h | h
          · exact hacc x h
          · rw [List.mem_singleton.mp h]; exact hd)

theorem parseLoop_inside (o : Line) : ∀ mc : List Line, (∀ x ∈ mc, isDelim x = false) →
    ∀ (acc : List Line) (r : List Line),
    parseLoop (mc ++ r) (some (o, acc)) = parseLoop r (some (o, acc ++ mc)) := by
  intro mc
  induction mc with
  | nil => intro _ acc r; simp
  | cons x mc' ih =>
    intro hmc acc r
    have hx : isDelim x = false := hmc x (List.mem_cons_self _ _)
    simp only [List.cons_append, parseLoop, hx, Bool.false_eq_true, if_false, List.append_eq]
    rw [ih (fun y hy => hmc y (List.mem_cons_of_mem _ hy)) (acc ++ [x]) r]
    simp [List.append_assoc]

/-- Re-parsing the rendered form of a well-formed block decomposition
recovers the same decomposition with each closed block's content replaced
by its rendered content (and the pending content of an unterminated fence
dropped, as the code does). -/
theorem parseLoop_flat (m : List Line → List Line)
    (hm : ∀ c : List Line, (∀ x ∈ c, isDelim x = false) → ∀ x ∈ m c, isDelim x = false) :
    ∀ segs : List Seg, (∀ s ∈ segs, segWF s) → noEarlyTail segs →
    parseLoop (flatSegs (renderWith m) segs) none = segs.map (mapSeg m) := by
  intro segs
  induction segs with
  | nil => intro _ _; rfl
  | cons s rest ih =>
    intro hwf hnt
    cases s with
    | out l =>
      have hl : isDelim l = false := hwf (.out l) (List.mem_cons_self _ _)
      have hnt' : noEarlyTail rest := by simpa [noEarlyTail] using hnt
      simp only [flatSegs, renderWith, List.singleton_append]
      simp only [parseLoop, hl, Bool.false_eq_true, if_false]
      rw [ih (fun s hs => hwf s (List.mem_cons_of_mem _ hs)) hnt']
      rfl
    | closed o c d =>
      obtain ⟨ho, hd', hc⟩ : segWF (Seg.closed o c d) := hwf _ (List.mem_cons_self _ _)
      have hnt' : noEarlyTail rest := by simpa [noEarlyTail] using hnt
      simp only [flatSegs, renderWith]
      rw [List.append_assoc, List.singleton_append]
      simp only [parseLoop, ho, if_true, List.append_eq]
      rw [parseLoop_inside o (m c) (hm c hc) [] (d :: flatSegs (renderWith m) rest)]
      simp only [parseLoop, hd', if_true, List.nil_append]
      rw [ih (fun s hs => hwf s (List.mem_cons_of_mem _ hs)) hnt']
      rfl
    | tail o c =>
      have hrest : rest = [] := by simpa [noEarlyTail] using hnt
      subst hrest
      obtain ⟨ho, _⟩ : segWF (Seg.tail o c) := hwf _ (List.mem_cons_self _ _)
      simp only [flatSegs, renderWith, List.append_nil]
      simp only [parseLoop, ho, if_true]
      rfl

theorem wrapContent_nondelim : ∀ c : List Line, (∀ x ∈ c, isDelim x = false) →
    ∀ x ∈ wrapContent c, isDelim x = false := by
  intro c hc x hx
  simp only [wrapContent] at hx
  split at hx
  · rcases List.mem_cons.mp hx with h | h
    · rw [h]; exact isDelim_rawLine
    · rcases List.mem_append.mp h with h2 | h2
      · exact hc x h2
      · rw [List.mem_singleton.mp h2]; exact isDelim_endLine
  · exact hc x hx

/-- Running the block transform on its own output re-parses into the same
segments with each closed block's content wrapped once more. -/
theorem parseBlocks_render (ls : List Line) :
    parseBlocks (flatSegs renderSeg (parseBlocks ls)) =
      (parseBlocks ls).map (mapSeg wrapContent) :=
  parseLoop_flat wrapContent wrapContent_nondelim (parseBlocks ls)
    (parseLoop_WF ls).1.1 (parseLoop_WF ls).1.2

/-! ### Splitting the scan at a point outside any fence (locality) -/

/-- The inside-fence flag after scanning a list of lines from a given
state: every delimiter line toggles it, exactly as in the scripts. -/
def scanB (b : Bool) (ls : List Line) : Bool :=
  ls.foldl (fun st l => if isDelim l then !st else st) b

theorem scanB_nil (b : Bool) : scanB b [] = b := rfl

theorem scanB_cons (b : Bool) (l : Line) (ls : List Line) :
    scanB b (l :: ls) = scanB (if isDelim l then !b else b) ls := rfl

theorem fixLoop_append : ∀ a : List Line,
    ((scanB false a = false →
      ∀ b, fixLoop (a ++ b) false [] = fixLoop a false [] ++ fixLoop b false []) ∧
     (scanB true a = false →
      ∀ b acc, fixLoop (a ++ b) true acc = fixLoop a true acc ++ fixLoop b false [])) := by
  intro a
  induction a with
  | nil =>
    constructor
    · intro _ b; rfl
    · intro h; rw [scanB_nil] at h; exact absurd h (by simp)
  | cons l a' ih =>
    constructor
    · intro h b
      rw [scanB_cons] at h
      cases hd : isDelim l with
      | true =>
        rw [hd] at h
        simp only [if_true, Bool.not_false] at h
        simp only [List.cons_append, fixLoop, hd, if_true, List.append_eq]
        rw [ih.2 h b []]
      | false =>
        rw [hd] at h
        simp only [Bool.false_eq_true, if_false] at h
        simp only [List.cons_append, fixLoop, hd, Bool.false_eq_true, if_false, List.append_eq]
        rw [ih.1 h b]
    · intro h b acc
      rw [scanB_cons] at h
      cases hd : isDelim l with
      | true =>
        rw [hd] at h
        simp only [if_true, Bool.not_true] at h
        simp only [List.cons_append, fixLoop, hd, if_true, List.append_eq]
        rw [ih.1 h b]
        simp [List.append_assoc]
      | false =>
        rw [hd] at h
        simp only [Bool.false_eq_true, if_false] at h
        simp only [List.cons_append, fixLoop, hd, Bool.false_eq_true, if_false, List.append_eq]
        exact ih.2 h b (acc ++ [l])

/-! ### Counting marker lines and triggered blocks -/

/-- The number of occurrences of a given whole line in a list of lines. -/
def cntLine (a : Line) : List Line → Nat
  | [] => 0
  | l :: ls => (if l = a then 1 else 0) + cntLine a ls

/-- The number of properly closed fenced blocks whose collected content
contains the trigger substring. -/
def nTrig : List Seg → Nat
  | [] => 0
  | .closed _ c _ :: rest => (if trigL c then 1 else 0) + nTrig rest
  | _ :: rest => nTrig rest

theorem cntLine_append (a : Line) : ∀ x y : List Line,
    cntLine a (x ++ y) = cntLine a x + cntLine a y := by
  intro x y
  induction x with
  | nil => simp [cntLine]
  | cons l x' ih =>
    simp only [List.cons_append, cntLine, List.append_eq, ih]
    omega

theorem hasSub_append_left {pat : Doc} : ∀ x z : Doc,
    hasSub pat x = true → hasSub pat (x ++ z) = true := by
  intro x z
  induction x with
  | nil =>
    intro h
    cases pat with
    | nil => cases z <;> rfl
    | cons p ps => exact absurd h (by simp [hasSub])
  | cons c cs ih =>
    intro h
    rw [hasSub_cons] at h
    rw [List.cons_append, hasSub_cons]
    rcases Bool.or_eq_true_iff.mp h with h' | h'
    · have h2 := isPrefixOf_append_weaken pat (c :: cs) z h'
      rw [List.cons_append] at h2
      simp [h2]
    · simp [ih h']

theorem hasSub_append_right {pat : Doc} : ∀ a t : Doc,
    hasSub pat t = true → hasSub pat (a ++ t) = true := by
  intro a t
  induction a with
  | nil => intro h; exact h
  | cons c a' ih =>
    intro h
    rw [List.cons_append, hasSub_cons]
    simp [ih h]

theorem joinNl_cons_ne (l : Line) {d : List Line} (hd : d ≠ []) :
    joinNl (l :: d) = l ++ '\n' :: joinNl d := by
  cases d with
  | nil => exact absurd rfl hd
  | cons d0 ds => rfl

theorem joinNl_append_ne : ∀ xs ys : List Line, xs ≠ [] → ys ≠ [] →
    joinNl (xs ++ ys) = joinNl xs ++ '\n' :: joinNl ys := by
  intro xs
  induction xs with
  | nil => intro ys h _; exact absurd rfl h
  | cons x xs' ih =>
    intro ys _ hys
    cases hxs' : xs' with
    | nil =>
      cases ys with
      | nil => exact absurd rfl hys
      | cons y ys' => rfl
    | cons a as =>
      rw [List.cons_append]
      rw [joinNl_cons_ne x (by simp [hxs'])]
      rw [joinNl_cons_ne x (by simp)]
      rw [← hxs', ih ys (by simp [hxs']) hys]
      simp [List.append_assoc]

theorem trigL_nil : trigL [] = false := by decide

/-- Wrapping a block's content with the marker pair does not change whether
it contains the trigger substring. -/
theorem trigL_wrapContent (c : List Line) : trigL (wrapContent c) = trigL c := by
  unfold wrapContent
  cases ht : trigL c with
  | false => simp [ht]
  | true =>
    simp only [ht, if_true]
    cases hc : c with
    | nil => rw [hc] at ht; rw [trigL_nil] at ht; exact absurd ht (by simp)
    | cons c0 cs =>
      rw [← hc]
      unfold trigL
      rw [joinNl_append_ne (rawLine :: c) [endLine] (by simp) (by simp)]
      rw [joinNl_cons_ne rawLine (by simp [hc])]
      apply hasSub_append_left
      apply hasSub_append_right
      exact hasSub_cons_tail '\n' ht

theorem ne_rawLine_of_delim {l : Line} (h : isDelim l = true) : l ≠ rawLine := by
  intro he
  subst he
  rw [isDelim_rawLine] at h
  exact absurd h (by simp)

theorem ne_endLine_of_delim {l : Line} (h : isDelim l = true) : l ≠ endLine := by
  intro he
  subst he
  rw [isDelim_endLine] at h
  exact absurd h (by simp)

theorem endLine_ne_rawLine : endLine ≠ rawLine := by decide

theorem cntLine_cons (a l : Line) (ls : List Line) :
    cntLine a (l :: ls) = (if l = a then 1 else 0) + cntLine a ls := rfl

theorem cnt_raw_wrapContent (c : List Line) :
    cntLine rawLine (wrapContent c) = (if trigL c then 1 else 0) + cntLine rawLine c := by
  unfold wrapContent
  cases ht : trigL c with
  | false => simp
  | true =>
    simp only [if_true]
    rw [cntLine_append]
    have h1 : cntLine rawLine [endLine] = 0 := by
      simp [cntLine, endLine_ne_rawLine]
    have h2 : cntLine rawLine (rawLine :: c) = 1 + cntLine rawLine c := by
      simp [cntLine]
    omega

theorem cnt_raw_render_closed (o : Line) (c : List Line) (d : Line)
    (ho : isDelim o = true) (hd : isDelim d = true) :
    cntLine rawLine (renderSeg (.closed o c d)) =
      (if trigL c then 1 else 0) + cntLine rawLine c := by
  have ho' : o ≠ rawLine := ne_rawLine_of_delim ho
  have hd' : d ≠ rawLine := ne_rawLine_of_delim hd
  simp only [renderSeg, renderWith]
  rw [cntLine_append, cntLine_cons, cnt_raw_wrapContent]
  simp [cntLine, ho', hd']

/-- Re-running the block transform adds exactly one more opening marker
line per triggered closed block. -/
theorem cnt_raw_wrap_segs : ∀ segs : List Seg, (∀ s ∈ segs, segWF s) →
    cntLine rawLine (flatSegs renderSeg (segs.map (mapSeg wrapContent))) =
      cntLine rawLine (flatSegs renderSeg segs) + nTrig segs := by
  intro segs
  induction segs with
  | nil => simp [flatSegs, nTrig, cntLine]
  | cons s rest ih =>
    intro hwf
    have ihr := ih (fun x hx => hwf x (List.mem_cons_of_mem _ hx))
    cases s with
    | out l =>
      simp only [List.map_cons, mapSeg, flatSegs, cntLine_append, nTrig]
      rw [ihr]
      omega
    | closed o c d =>
      obtain ⟨ho, hd, _⟩ : segWF (Seg.closed o c d) := hwf _ (List.mem_cons_self _ _)
      simp only [List.map_cons, mapSeg, flatSegs, cntLine_append]
      rw [ihr, cnt_raw_render_closed o c d ho hd,
        cnt_raw_render_closed o (wrapContent c) d ho hd,
        trigL_wrapContent, cnt_raw_wrapContent]
      show _ + _ = _
      simp only [nTrig]
      omega
    | tail o c =>
      simp only [List.map_cons, mapSeg, flatSegs, cntLine_append, nTrig]
      rw [ihr]
      simp only [renderSeg, renderWith]
      omega

theorem mem_wrapContent : ∀ (c : List Line) (x : Line), x ∈ wrapContent c →
    x = rawLine ∨ x = endLine ∨ x ∈ c := by
  intro c x hx
  unfold wrapContent at hx
  split at hx
  · rcases List.mem_append.mp hx with h | h
    · rcases List.mem_cons.mp h with h2 | h2
      · exact Or.inl h2
      · exact Or.inr (Or.inr h2)
    · exact Or.inr (Or.inl (List.mem_singleton.mp h))
  · exact Or.inr (Or.inr hx)

theorem mem_flat_renderWith (m : List Line → List Line)
    (hmem : ∀ (c : List Line) (x : Line), x ∈ m c → x = rawLine ∨ x = endLine ∨ x ∈ c) :
    ∀ segs : List Seg, ∀ l ∈ flatSegs (renderWith m) segs,
      l = rawLine ∨ l = endLine ∨ l ∈ flatSegs unparseFull segs := by
  intro segs
  induction segs with
  | nil => simp [flatSegs]
  | cons s rest ih =>
    intro l hl
    rcases List.mem_append.mp hl with h | h
    · cases s with
      | out l' =>
        simp only [renderWith, List.mem_singleton] at h
        subst h
        exact Or.inr (Or.inr (by simp [flatSegs, unparseFull]))
      | closed o c d =>
        simp only [renderWith] at h
        rcases List.mem_append.mp h with h2 | h2
        · rcases List.mem_cons.mp h2 with h3 | h3
          · subst h3
            exact Or.inr (Or.inr (by simp [flatSegs, unparseFull]))
          · rcases hmem c l h3 with h4 | h4 | h4
            · exact Or.inl h4
            · exact Or.inr (Or.inl h4)
            · exact Or.inr (Or.inr (by simp [flatSegs, unparseFull, h4]))
        · rw [List.mem_singleton.mp h2]
          refine Or.inr (Or.inr ?_)
          simp [flatSegs, unparseFull]
      | tail o c =>
        simp only [renderWith, List.mem_singleton] at h
        subst h
        exact Or.inr (Or.inr (by simp [flatSegs, unparseFull]))
    · rcases ih l h with h2 | h2 | h2
      · exact Or.inl h2
      · exact Or.inr (Or.inl h2)
      · exact Or.inr (Or.inr (by
          simp only [flatSegs, List.mem_append]
          exact Or.inr h2))

theorem noNl_fixLines (ls : List Line) (h : ∀ l ∈ ls, noNl l) :
    ∀ l ∈ fixLines ls, noNl l := by
  rw [fixLines_renders]
  intro l hl
  rcases mem_flat_renderWith wrapContent mem_wrapContent (parseBlocks ls) l hl with h1 | h1 | h1
  · rw [h1]; exact noNl_rawMark
  · rw [h1]; exact noNl_endMark
  · rw [parseBlocks_unparse] at h1
    exact h l h1

/-! ### The strip passes applied to the transform's own output -/

/-- A closed block's content after the raw-marker lines have been deleted
from its rendered form: only the closing marker line remains. -/
def midWrap (c : List Line) : List Line := if trigL c then c ++ [endLine] else c

theorem mem_midWrap : ∀ (c : List Line) (x : Line), x ∈ midWrap c →
    x = rawLine ∨ x = endLine ∨ x ∈ c := by
  intro c x hx
  unfold midWrap at hx
  split at hx
  · rcases List.mem_append.mp hx with h | h
    · exact Or.inr (Or.inr h)
    · exact Or.inr (Or.inl (List.mem_singleton.mp h))
  · exact Or.inr (Or.inr hx)

theorem mem_contentId : ∀ (c : List Line) (x : Line), x ∈ (fun c : List Line => c) c →
    x = rawLine ∨ x = endLine ∨ x ∈ c := by
  intro c x hx
  exact Or.inr (Or.inr hx)

theorem delRaw_append : ∀ x y : List Line, delRaw (x ++ y) = delRaw x ++ delRaw y := by
  intro x y
  induction x with
  | nil => rfl
  | cons l x' ih =>
    simp only [List.cons_append, delRaw, List.append_eq]
    split
    · exact ih
    · rw [ih]; rfl

theorem delEnd_append : ∀ x y : List Line, delEnd (x ++ y) = delEnd x ++ delEnd y := by
  intro x y
  induction x with
  | nil => rfl
  | cons l x' ih =>
    simp only [List.cons_append, delEnd, List.append_eq]
    split
    · exact ih
    · rw [ih]; rfl

theorem delRaw_eq_self : ∀ xs : List Line, (∀ x ∈ xs, x ≠ rawLine) → delRaw xs = xs := by
  intro xs
  induction xs with
  | nil => intro _; rfl
  | cons l xs' ih =>
    intro h
    simp only [delRaw, if_neg (h l (List.mem_cons_self _ _))]
    rw [ih (fun x hx => h x (List.mem_cons_of_mem _ hx))]

theorem delEnd_eq_self : ∀ xs : List Line, (∀ x ∈ xs, x ≠ endLine) → delEnd xs = xs := by
  intro xs
  induction xs with
  | nil => intro _; rfl
  | cons l xs' ih =>
    intro h
    simp only [delEnd, if_neg (h l (List.mem_cons_self _ _))]
    rw [ih (fun x hx => h x (List.mem_cons_of_mem _ hx))]

theorem flatSegs_cons (f : Seg → List Line) (s : Seg) (rest : List Seg) :
    flatSegs f (s :: rest) = f s ++ flatSegs f rest := rfl

/-- Deleting the raw-marker lines from the rendered output yields the
rendering where each triggered block keeps only its closing marker. -/
theorem delRaw_flat : ∀ segs : List Seg, (∀ s ∈ segs, segWF s) →
    (∀ l ∈ flatSegs unparseFull segs, l ≠ rawLine) →
    delRaw (flatSegs renderSeg segs) = flatSegs (renderWith midWrap) segs := by
  intro segs
  induction segs with
  | nil => intro _ _; rfl
  | cons s rest ih =>
    intro hwf hml
    have hml' : ∀ l ∈ flatSegs unparseFull rest, l ≠ rawLine := by
      intro l hl
      exact hml l (List.mem_append.mpr (Or.inr hl))
    have ihr := ih (fun x hx => hwf x (List.mem_cons_of_mem _ hx)) hml'
    rw [flatSegs_cons, flatSegs_cons, delRaw_append, ihr]
    congr 1
    cases s with
    | out l =>
      have hl : l ≠ rawLine := hml l (List.mem_append.mpr (Or.inl (by simp [unparseFull])))
      simp [renderSeg, renderWith, delRaw, hl]
    | closed o c d =>
      obtain ⟨ho, hd, _⟩ : segWF (Seg.closed o c d) := hwf _ (List.mem_cons_self _ _)
      have hor : o ≠ rawLine := ne_rawLine_of_delim ho
      have hdr : d ≠ rawLine := ne_rawLine_of_delim hd
      have hcr : ∀ x ∈ c, x ≠ rawLine := by
        intro x hx
        exact hml x (List.mem_append.mpr (Or.inl (by simp [unparseFull, hx])))
      simp only [renderSeg, renderWith]
      rw [delRaw_append]
      rw [show delRaw [d] = [d] from by simp [delRaw, hdr]]
      rw [show delRaw (o :: wrapContent c) = o :: delRaw (wrapContent c) from by
        simp [delRaw, hor]]
      unfold wrapContent midWrap
      cases ht : trigL c with
      | true =>
        simp only [if_true]
        rw [delRaw_append]
        rw [show delRaw (rawLine :: c) = delRaw c from by simp [delRaw]]
        rw [show delRaw [endLine] = [endLine] from by simp [delRaw, endLine_ne_rawLine]]
        rw [delRaw_eq_self c hcr]
      | false =>
        simp only [Bool.false_eq_true, if_false]
        rw [delRaw_eq_self c hcr]
    | tail o c =>
      obtain ⟨ho, _⟩ : segWF (Seg.tail o c) := hwf _ (List.mem_cons_self _ _)
      simp [renderSeg, renderWith, delRaw, ne_rawLine_of_delim ho]

/-- Deleting the endraw-marker lines then yields the plain un-wrapped
rendering. -/
theorem delEnd_flat : ∀ segs : List Seg, (∀ s ∈ segs, segWF s) →
    (∀ l ∈ flatSegs unparseFull segs, l ≠ endLine) →
    delEnd (flatSegs (renderWith midWrap) segs) =
      flatSegs (renderWith (fun c => c)) segs := by
  intro segs
  induction segs with
  | nil => intro _ _; rfl
  | cons s rest ih =>
    intro hwf hml
    have hml' : ∀ l ∈ flatSegs unparseFull rest, l ≠ endLine := by
      intro l hl
      exact hml l (List.mem_append.mpr (Or.inr hl))
    have ihr := ih (fun x hx => hwf x (List.mem_cons_of_mem _ hx)) hml'
    rw [flatSegs_cons, flatSegs_cons, delEnd_append, ihr]
    congr 1
    cases s with
    | out l =>
      have hl : l ≠ endLine := hml l (List.mem_append.mpr (Or.inl (by simp [unparseFull])))
      simp [renderWith, delEnd, hl]
    | closed o c d =>
      obtain ⟨ho, hd, _⟩ : segWF (Seg.closed o c d) := hwf _ (List.mem_cons_self _ _)
      have hoe : o ≠ endLine := ne_endLine_of_delim ho
      have hde : d ≠ endLine := ne_endLine_of_delim hd
      have hce : ∀ x ∈ c, x ≠ endLine := by
        intro x hx
        exact hml x (List.mem_append.mpr (Or.inl (by simp [unparseFull, hx])))
      simp only [renderWith]
      rw [delEnd_append]
      rw [show delEnd [d] = [d] from by simp [delEnd, hde]]
      rw [show delEnd (o :: midWrap c) = o :: delEnd (midWrap c) from by
        simp [delEnd, hoe]]
      unfold midWrap
      cases ht : trigL c with
      | true =>
        simp only [if_true]
        rw [delEnd_append, delEnd_eq_self c hce]
        rw [show delEnd [endLine] = [] from by simp [delEnd]]
        simp
      | false =>
        simp only [Bool.false_eq_true, if_false]
        rw [delEnd_eq_self c hce]
    | tail o c =>
      obtain ⟨ho, _⟩ : segWF (Seg.tail o c) := hwf _ (List.mem_cons_self _ _)
      simp [renderWith, delEnd, ne_endLine_of_delim ho]

theorem getLast?_append_ne (x : List Line) : ∀ y : List Line, y ≠ [] →
    (x ++ y).getLast? = y.getLast? := fun _ hy =>
  List.getLast?_append_of_ne_nil x hy

theorem renderWith_ne_nil (m : List Line → List Line) (s : Seg) : renderWith m s ≠ [] := by
  cases s <;> simp [renderWith]

theorem flatSegs_renderWith_ne_nil (m : List Line → List Line) (s : Seg) (rest : List Seg) :
    flatSegs (renderWith m) (s :: rest) ≠ [] := by
  rw [flatSegs_cons]
  intro h
  rcases List.append_eq_nil.mp h with ⟨h1, _⟩
  exact renderWith_ne_nil m s h1

theorem flat_render_getLast : ∀ segs : List Seg, (∀ s ∈ segs, segWF s) →
    (∀ l ∈ flatSegs unparseFull segs, l ≠ rawLine) →
    (flatSegs renderSeg segs).getLast? ≠ some rawLine := by
  intro segs
  induction segs with
  | nil => intro _ _; simp [flatSegs]
  | cons s rest ih =>
    intro hwf hml
    cases rest with
    | nil =>
      rw [flatSegs_cons]
      rw [show flatSegs renderSeg ([] : List Seg) = [] from rfl, List.append_nil]
      cases s with
      | out l =>
        have hl : l ≠ rawLine := hml l (by simp [flatSegs, unparseFull])
        simp [renderSeg, renderWith, hl]
      | closed o c d =>
        obtain ⟨ho, hd, _⟩ : segWF (Seg.closed o c d) := hwf _ (List.mem_cons_self _ _)
        have hdr : d ≠ rawLine := ne_rawLine_of_delim hd
        simp only [renderSeg, renderWith]
        rw [getLast?_append_ne (o :: wrapContent c) [d] (by simp)]
        simp [hdr]
      | tail o c =>
        obtain ⟨ho, _⟩ : segWF (Seg.tail o c) := hwf _ (List.mem_cons_self _ _)
        simp [renderSeg, renderWith, ne_rawLine_of_delim ho]
    | cons s' rest' =>
      rw [flatSegs_cons]
      rw [getLast?_append_ne _ _
        (show flatSegs renderSeg (s' :: rest') ≠ [] from
          flatSegs_renderWith_ne_nil wrapContent s' rest')]
      exact ih (fun x hx => hwf x (List.mem_cons_of_mem _ hx))
        (fun l hl => hml l (List.mem_append.mpr (Or.inr hl)))

theorem flat_renderWith_head (m : List Line → List Line) (segs : List Seg)
    (hwf : ∀ s ∈ segs, segWF s)
    (hml : ∀ l ∈ flatSegs unparseFull segs, l ≠ endLine) :
    (flatSegs (renderWith m) segs).head? ≠ some endLine := by
  cases segs with
  | nil => simp [flatSegs]
  | cons s rest =>
    rw [flatSegs_cons]
    cases s with
    | out l =>
      have hl : l ≠ endLine := hml l (by simp [flatSegs, unparseFull])
      simp [renderWith, hl]
    | closed o c d =>
      obtain ⟨ho, _, _⟩ : segWF (Seg.closed o c d) := hwf _ (List.mem_cons_self _ _)
      simp [renderWith, ne_endLine_of_delim ho]
    | tail o c =>
      obtain ⟨ho, _⟩ : segWF (Seg.tail o c) := hwf _ (List.mem_cons_self _ _)
      simp [renderWith, ne_endLine_of_delim ho]

theorem parseLoop_some_ne_nil : ∀ (ls : List Line) (o : Line) (acc : List Line),
    parseLoop ls (some (o, acc)) ≠ [] := by
  intro ls
  induction ls with
  | nil => intro o acc; simp [parseLoop]
  | cons l rest ih =>
    intro o acc
    simp only [parseLoop]
    split
    · simp
    · exact ih o (acc ++ [l])

theorem parseBlocks_ne_nil (ls : List Line) (h : ls ≠ []) : parseBlocks ls ≠ [] := by
  cases ls with
  | nil => exact absurd rfl h
  | cons l rest =>
    unfold parseBlocks
    simp only [parseLoop]
    split
    · exact parseLoop_some_ne_nil rest l []
    · simp

theorem flat_render_map_id : ∀ segs : List Seg,
    flatSegs renderSeg (segs.map (mapSeg (fun c => c))) = flatSegs renderSeg segs := by
  intro segs
  induction segs with
  | nil => rfl
  | cons s rest ih =>
    rw [List.map_cons, flatSegs_cons, flatSegs_cons, ih]
    congr 1
    cases s <;> simp [mapSeg, renderSeg, renderWith]

/-- Applying both strip passes to the output of the block-level transform on
a marker-free document removes exactly the inserted marker lines. -/
theorem strip_fixT_of_marker_free (z : Doc)
    (hraw : hasSub rawMark z = false) (hend : hasSub endMark z = false) :
    stripEnd (stripRaw (fix_template_literals z)) =
      joinNl (flatSegs (renderWith (fun c => c)) (parseBlocks (splitNl z))) := by
  have hlsNl : ∀ l ∈ splitNl z, noNl l := noNl_splitNl z
  have hjz : joinNl (splitNl z) = z := joinNl_splitNl z
  have hlraw : ∀ l ∈ splitNl z, hasSub rawMark l = false := by
    have h1 := hasSub_joinNl noNl_rawMark rawMark_ne_nil (splitNl z)
    rw [hjz, hraw] at h1
    intro l hl
    have h2 := List.any_eq_false.mp h1.symm l hl
    cases hq : hasSub rawMark l with
    | false => rfl
    | true => exact absurd hq h2
  have hlend : ∀ l ∈ splitNl z, hasSub endMark l = false := by
    have h1 := hasSub_joinNl noNl_endMark endMark_ne_nil (splitNl z)
    rw [hjz, hend] at h1
    intro l hl
    have h2 := List.any_eq_false.mp h1.symm l hl
    cases hq : hasSub endMark l with
    | false => rfl
    | true => exact absurd hq h2
  have hWF := (parseLoop_WF (splitNl z)).1.1
  have hunp : flatSegs unparseFull (parseBlocks (splitNl z)) = splitNl z :=
    parseBlocks_unparse (splitNl z)
  have hfz : fix_template_literals z =
      joinNl (flatSegs renderSeg (parseBlocks (splitNl z))) := by
    unfold fix_template_literals
    rw [fixLines_renders]
  rw [hfz]
  have hok1 : ∀ l ∈ flatSegs renderSeg (parseBlocks (splitNl z)),
      l = rawLine ∨ (noNl l ∧ hasSub rawMark l = false) := by
    intro l hl
    rcases mem_flat_renderWith wrapContent mem_wrapContent (parseBlocks (splitNl z)) l hl
      with h | h | h
    · exact Or.inl h
    · right; rw [h]; exact ⟨noNl_endMark, hasSub_rawMark_endLine⟩
    · right
      rw [hunp] at h
      exact ⟨hlsNl l h, hlraw l h⟩
  have hlast1 : (flatSegs renderSeg (parseBlocks (splitNl z))).getLast? ≠ some rawLine :=
    flat_render_getLast (parseBlocks (splitNl z)) hWF (by
      rw [hunp]
      intro l hl
      exact ne_rawLine_of_not_hasSub (hlraw l hl))
  rw [stripRaw_joinNl _ hok1 hlast1]
  rw [delRaw_flat (parseBlocks (splitNl z)) hWF (by
    rw [hunp]
    intro l hl
    exact ne_rawLine_of_not_hasSub (hlraw l hl))]
  have hok2 : ∀ l ∈ flatSegs (renderWith midWrap) (parseBlocks (splitNl z)),
      l = endLine ∨ (noNl l ∧ hasSub endMark l = false) := by
    intro l hl
    rcases mem_flat_renderWith midWrap mem_midWrap (parseBlocks (splitNl z)) l hl
      with h | h | h
    · right; rw [h]; exact ⟨noNl_rawMark, hasSub_endMark_rawLine⟩
    · exact Or.inl h
    · right
      rw [hunp] at h
      exact ⟨hlsNl l h, hlend l h⟩
  have hhead2 : (flatSegs (renderWith midWrap) (parseBlocks (splitNl z))).head? ≠
      some endLine :=
    flat_renderWith_head midWrap (parseBlocks (splitNl z)) hWF (by
      rw [hunp]
      intro l hl
      exact ne_endLine_of_not_hasSub (hlend l hl))
  rw [stripEnd_joinNl _ hok2 hhead2]
  rw [delEnd_flat (parseBlocks (splitNl z)) hWF (by
    rw [hunp]
    intro l hl
    exact ne_endLine_of_not_hasSub (hlend l hl))]

theorem parseBlocks_flat_id (segs : List Seg) (hwf : ∀ s ∈ segs, segWF s)
    (hnt : noEarlyTail segs) :
    parseBlocks (flatSegs (renderWith (fun c => c)) segs) =
      segs.map (mapSeg (fun c => c)) :=
  parseLoop_flat (fun c => c) (fun _ hc => hc) segs hwf hnt

/-! ### Instrumented loop counting inserted marker lines -/

/-- The scanning loop instrumented with two counters that are incremented
exactly at the two `result_lines.append` sites that insert the opening and
the closing marker line. -/
def fixLoopC : List Line → Bool → List Line → List Line × Nat × Nat
  | [], _, _ => ([], 0, 0)
  | l :: rest, false, pending =>
    if isDelim l then
      let r := fixLoopC rest true pending
      (l :: r.1, r.2.1, r.2.2)
    else
      let r := fixLoopC rest false pending
      (l :: r.1, r.2.1, r.2.2)
  | l :: rest, true, pending =>
    if isDelim l then
      let r := fixLoopC rest false []
      if hasSub trigger (joinNl pending) then
        ((rawLine :: pending ++ [endLine]) ++ l :: r.1, r.2.1 + 1, r.2.2 + 1)
      else (pending ++ l :: r.1, r.2.1, r.2.2)
    else fixLoopC rest true (pending ++ [l])

theorem fixLoopC_spec : ∀ ls : List Line,
    (fixLoopC ls false [] =
      (fixLoop ls false [], nTrig (parseLoop ls none), nTrig (parseLoop ls none))) ∧
    (∀ o acc, fixLoopC ls true acc =
      (fixLoop ls true acc, nTrig (parseLoop ls (some (o, acc))),
        nTrig (parseLoop ls (some (o, acc))))) := by
  intro ls
  induction ls with
  | nil =>
    constructor
    · rfl
    · intro o acc; rfl
  | cons l rest ih =>
    constructor
    · cases hd : isDelim l with
      | true =>
        simp only [fixLoopC, fixLoop, parseLoop, hd, if_true]
        rw [ih.2 l []]
      | false =>
        simp only [fixLoopC, fixLoop, parseLoop, hd, Bool.false_eq_true, if_false]
        rw [ih.1]
        simp [nTrig]
    · intro o acc
      cases hd : isDelim l with
      | true =>
        simp only [fixLoopC, fixLoop, parseLoop, hd, if_true]
        rw [ih.1]
        cases ht : hasSub trigger (joinNl acc) with
        | true =>
          simp only [ht, if_true, nTrig, trigL]
          simp [Nat.add_comm]
        | false =>
          simp only [ht, Bool.false_eq_true, if_false, nTrig, trigL]
          simp
      | false =>
        simp only [fixLoopC, fixLoop, parseLoop, hd, Bool.false_eq_true, if_false]
        exact ih.2 o (acc ++ [l])

/-! ### The whole-content substitution of `fix_jekyll_syntax.py` -/

/-- Model of the global `re.sub(r'\$\{([^}]+)\}', replace_template_literal,
content)` scan: at each position, if the text starts with the trigger
followed by one or more non-brace characters and a closing brace, the whole
match is replaced by `repl` applied to the matched group, and the scan
continues after the match; otherwise the scan advances one character.  The
replacement function is a parameter because the replacement expression in
the source (its f-string) is malformed — a backslash inside an f-string
expression part, which is a syntax error in the reference Python — so no
concrete replacement semantics can be taken from the source. -/
def subTLF (repl : Doc → Doc) : Nat → Doc → Doc
  | 0, s => s
  | _ + 1, [] => []
  | n + 1, c :: cs =>
    if trigger.isPrefixOf (c :: cs) then
      match ((c :: cs).drop trigger.length).takeWhile (fun d => !(d == '\x7d')),
          ((c :: cs).drop trigger.length).drop
            (((c :: cs).drop trigger.length).takeWhile (fun d => !(d == '\x7d'))).length with
      | b :: bs, '\x7d' :: r3 => repl (b :: bs) ++ subTLF repl n r3
      | _, _ => c :: subTLF repl n cs
    else c :: subTLF repl n cs

def subTL (repl : Doc → Doc) (s : Doc) : Doc := subTLF repl s.length s

/-! ### Per-file processing and batch drivers -/

/-- Model of `process_file` from `fix_liquid.py`: the whole body runs under
`try`/`except`, so any error while reading, or writing is reported and the
function returns `False`; `True` is returned only when a changed document
was successfully written back. -/
def process_file (readF : String → Except String Doc)
    (writeF : String → Doc → Except String Unit) (p : String) : Bool :=
  match readF p with
  | .error _ => false
  | .ok content =>
    if hasSub trigger content then
      if fix_template_literals content ≠ content then
        match writeF p (fix_template_literals content) with
        | .error _ => false
        | .ok _ => true
      else false
    else false

/-- The batch loop of `main` in `fix_liquid.py`: every file is processed in
order and the count of fixed files is accumulated; a per-file failure does
not stop the loop. -/
def liquidBatch (readF : String → Except String Doc)
    (writeF : String → Doc → Except String Unit) : List String → Nat
  | [] => 0
  | p :: ps =>
    (if process_file readF writeF p then 1 else 0) + liquidBatch readF writeF ps

/-- Model of `fix_liquid_syntax_in_file` from `fix_jekyll_syntax.py`: the
substitution is applied to the entire file content (not only inside fenced
blocks), and there is no exception handling, so a read or write error
propagates to the caller. -/
def fix_liquid_syntax_in_file (repl : Doc → Doc)
    (readF : String → Except String Doc)
    (writeF : String → Doc → Except String Unit) (p : String) :
    Except String Bool := do
  let content ← readF p
  if subTL repl content ≠ content then do
    let _ ← writeF p (subTL repl content)
    pure true
  else pure false

/-- The batch loop of `main` in `fix_jekyll_syntax.py`: files are processed
in order with no per-file exception handling, so the first error aborts the
whole batch. -/
def jekyllBatch (repl : Doc → Doc) (readF : String → Except String Doc)
    (writeF : String → Doc → Except String Unit) : List String → Except String Nat
  | [] => .ok 0
  | p :: ps => do
    let b ← fix_liquid_syntax_in_file repl readF writeF p
    let n ← jekyllBatch repl readF writeF ps
    pure ((if b then 1 else 0) + n)

/-- Modelled from the spec: the inline escape wrapping that the malformed
replacement in `fix_jekyll_syntax.py` was intended to produce — the matched
`${...}` substring wrapped in the opening and closing markers, the rest of
the line untouched.  (The actual replacement f-string in the source is a
Python syntax error, so the intended replacement is taken from the spec's
line-level policy.) -/
def jekyllReplSpec (body : Doc) : Doc :=
  rawMark ++ trigger ++ body ++ ('\x7d' :: endMark)

theorem fixLines_ne_nil (ls : List Line) (h : ls ≠ []) : fixLines ls ≠ [] := by
  rw [fixLines_renders]
  have hne := parseBlocks_ne_nil ls h
  cases hseg : parseBlocks ls with
  | nil => exact absurd hseg hne
  | cons s rest => exact flatSegs_renderWith_ne_nil wrapContent s rest

theorem splitNl_fixT (t : Doc) :
    splitNl (fix_template_literals t) = fixLines (splitNl t) := by
  unfold fix_template_literals
  exact splitNl_joinNl _ (noNl_fixLines _ (noNl_splitNl t))
    (fixLines_ne_nil _ (splitNl_ne_nil t))

/-! ### The claims -/

/-- Claim C1 (code bug): the specification requires that when a document
ends inside an unterminated fence the pending collected lines are emitted
unchanged, but `fix_template_literals` never flushes `code_block_lines`
after its loop, so the pending lines are silently dropped: on the document
"```\na${b" the output is just "```", not the input. -/
theorem c1_unterminated_fence_dropped :
    fix_template_literals ("```\na$\x7bb".data) = "```".data ∧
    ("```".data : Doc) ≠ "```\na$\x7bb".data :=
  ⟨by decide, by decide⟩

/-- Claim C2 (counterexample): strip-then-rewrap is not idempotent for every
input: removing a marker occurrence can create a new occurrence that the
single-pass `re.sub` scan does not remove, so a second run changes the text
again.  On "a{% r{% raw %}aw %}b" one application yields "a{% raw %}b" and
a second application yields "ab". -/
theorem c2_idempotence_counterexample :
    clean_and_fix (clean_and_fix ("a\x7b% r\x7b% raw %\x7daw %\x7db".data)) ≠
      clean_and_fix ("a\x7b% r\x7b% raw %\x7daw %\x7db".data) := by decide

/-- Claim C2 (amended): applying the strip-then-rewrap transform twice
yields the same text as applying it once for every input on which the
strip pass itself is idempotent (equivalently, whose stripped text contains
no residual marker substring); only inputs where removing a marker
occurrence creates a new, overlapping occurrence violate idempotence. -/
theorem c2_idempotent_of_strip_idempotent (x : Doc)
    (h : stripEnd (stripRaw (stripEnd (stripRaw x))) = stripEnd (stripRaw x)) :
    clean_and_fix (clean_and_fix x) = clean_and_fix x := by
  have l1 := stripRaw_length_le (stripEnd (stripRaw x))
  have l2 := stripEnd_length_le (stripRaw (stripEnd (stripRaw x)))
  have l3 : (stripEnd (stripRaw (stripEnd (stripRaw x)))).length =
      (stripEnd (stripRaw x)).length := by rw [h]
  have hraw : hasSub rawMark (stripEnd (stripRaw x)) = false := by
    cases hq : hasSub rawMark (stripEnd (stripRaw x)) with
    | false => rfl
    | true =>
      have hlt := stripRaw_length_lt _ hq
      omega
  have hsr : stripRaw (stripEnd (stripRaw x)) = stripEnd (stripRaw x) :=
    stripRaw_not_has _ hraw
  rw [hsr] at h
  have hend : hasSub endMark (stripEnd (stripRaw x)) = false :=
    (stripEnd_eq_self_iff _).mp h
  show fix_template_literals
      (stripEnd (stripRaw (fix_template_literals (stripEnd (stripRaw x))))) =
    fix_template_literals (stripEnd (stripRaw x))
  rw [strip_fixT_of_marker_free _ hraw hend]
  have hWF : ∀ t ∈ parseBlocks (splitNl (stripEnd (stripRaw x))), segWF t :=
    (parseLoop_WF (splitNl (stripEnd (stripRaw x)))).1.1
  have hNT : noEarlyTail (parseBlocks (splitNl (stripEnd (stripRaw x)))) :=
    (parseLoop_WF (splitNl (stripEnd (stripRaw x)))).1.2
  have hsegne := parseBlocks_ne_nil _ (splitNl_ne_nil (stripEnd (stripRaw x)))
  have hFne : flatSegs (renderWith (fun c => c))
      (parseBlocks (splitNl (stripEnd (stripRaw x)))) ≠ [] := by
    cases hseg : parseBlocks (splitNl (stripEnd (stripRaw x))) with
    | nil => exact absurd hseg hsegne
    | cons s rest => exact flatSegs_renderWith_ne_nil _ s rest
  have hFnl : ∀ l ∈ flatSegs (renderWith (fun c => c))
      (parseBlocks (splitNl (stripEnd (stripRaw x)))), noNl l := by
    intro l hl
    rcases mem_flat_renderWith _ mem_contentId _ l hl with h1 | h1 | h1
    · rw [h1]; exact noNl_rawMark
    · rw [h1]; exact noNl_endMark
    · rw [parseBlocks_unparse] at h1
      exact noNl_splitNl _ l h1
  unfold fix_template_literals
  rw [splitNl_joinNl _ hFnl hFne]
  rw [fixLines_renders, fixLines_renders]
  rw [parseBlocks_flat_id _ hWF hNT, flat_render_map_id]

theorem c2_idempotent_witness :
    stripEnd (stripRaw (stripEnd (stripRaw ("p\n```\nq$\x7br\n```\ns".data)))) =
      stripEnd (stripRaw ("p\n```\nq$\x7br\n```\ns".data)) ∧
    clean_and_fix (clean_and_fix ("p\n```\nq$\x7br\n```\ns".data)) =
      clean_and_fix ("p\n```\nq$\x7br\n```\ns".data) :=
  ⟨by decide, c2_idempotent_of_strip_idempotent _ (by decide)⟩

/-- Claim C3: selective wrapping. The scanning loop of the scripts equals
the declarative per-block rendering of the fence decomposition, in which a
properly closed block whose collected content contains the trigger gets
exactly one opening marker line immediately before its content and exactly
one closing marker line immediately after it, and a closed block without
the trigger gets no markers; the decomposition itself reassembles to
exactly the input lines. -/
theorem c3_selective_wrapping (s : Doc) :
    fixLines (splitNl s) = flatSegs renderSeg (parseBlocks (splitNl s)) ∧
    flatSegs unparseFull (parseBlocks (splitNl s)) = splitNl s :=
  ⟨fixLines_renders _, parseBlocks_unparse _⟩

/-- Claim C4: locality.  Any non-delimiter line at a position where the
scan is outside every fenced block is passed through byte-for-byte at its
place, regardless of its content (in particular it may contain the
trigger substring). -/
theorem c4_outside_lines_unchanged (ls₁ : List Line) (l : Line) (ls₂ : List Line)
    (h1 : scanB false ls₁ = false) (h2 : isDelim l = false) :
    fixLines (ls₁ ++ l :: ls₂) = fixLines ls₁ ++ l :: fixLines ls₂ := by
  unfold fixLines
  rw [(fixLoop_append ls₁).1 h1 (l :: ls₂)]
  congr 1
  simp only [fixLoop, h2, Bool.false_eq_true, if_false]

theorem c4_outside_lines_witness :
    scanB false ["intro".data, "```".data, "code".data, "```".data] = false ∧
    isDelim ("use $\x7bv\x7d syntax".data) = false ∧
    fixLines (["intro".data, "```".data, "code".data, "```".data] ++
        ("use $\x7bv\x7d syntax".data) :: ["after".data]) =
      fixLines ["intro".data, "```".data, "code".data, "```".data] ++
        ("use $\x7bv\x7d syntax".data) :: fixLines ["after".data] :=
  ⟨by decide, by decide,
    c4_outside_lines_unchanged _ _ _ (by decide) (by decide)⟩

/-- Claim C5 (code bug): content preservation fails on the code.  An
unterminated fence's collected lines are dropped by the loop, so the
multiset of non-marker output lines is not the multiset of input lines:
the non-marker input line "lost line" occurs once in the input and zero
times in the output. -/
theorem c5_content_loss :
    fix_template_literals ("```\nkeep\n```\n```\nlost line".data) =
      "```\nkeep\n```\n```".data ∧
    cntLine ("lost line".data) (splitNl ("```\nkeep\n```\n```\nlost line".data)) = 1 ∧
    cntLine ("lost line".data)
      (splitNl (fix_template_literals ("```\nkeep\n```\n```\nlost line".data))) = 0 ∧
    ("lost line".data : Line) ≠ rawLine ∧ ("lost line".data : Line) ≠ endLine :=
  ⟨by decide, by decide, by decide, by decide, by decide⟩

/-- Claim C6 (code bug): `fix_jekyll_syntax.py` applies its substitution to
the entire document, not only to lines inside fenced code blocks (its own
comment announces "Only replace if we're in code blocks" before choosing a
"simpler replacement that works universally"), so a `${...}` occurrence in
prose outside any fence is rewritten, whatever the replacement function is;
in addition the replacement f-string in the source is malformed (a
backslash inside an f-string expression part, a syntax error in the
reference Python). -/
theorem c6_universal_substitution (repl : Doc → Doc) :
    subTL repl ("Use $\x7bx\x7d here".data) =
      "Use ".data ++ repl ("x".data) ++ " here".data := rfl

/-- Claim C7: marker balance.  With the loop instrumented at the two
insertion sites, every run inserts equally many opening and closing marker
lines, and that common number is the number of triggered properly closed
blocks — each block is wrapped at most once per run, so inserted pairs are
never nested. -/
theorem c7_marker_balance (ls : List Line) :
    (fixLoopC ls false []).1 = fixLines ls ∧
    (fixLoopC ls false []).2.1 = (fixLoopC ls false []).2.2 ∧
    (fixLoopC ls false []).2.1 = nTrig (parseBlocks ls) := by
  have h := (fixLoopC_spec ls).1
  rw [show fixLines ls = fixLoop ls false [] from rfl, h]
  exact ⟨rfl, rfl, rfl⟩

/-- Claim C8 (counterexample): `fix_jekyll_syntax.py` has no per-file
exception handling: a read error propagates out of
`fix_liquid_syntax_in_file` instead of being caught and turned into a
`False` result, and the batch aborts without processing the remaining
files. -/
theorem c8_jekyll_error_aborts :
    fix_liquid_syntax_in_file jekyllReplSpec (fun _ => Except.error "io error")
      (fun _ _ => Except.ok ()) "a.md" = Except.error "io error" ∧
    jekyllBatch jekyllReplSpec (fun _ => Except.error "io error")
      (fun _ _ => Except.ok ()) ["a.md", "b.md"] = Except.error "io error" :=
  ⟨rfl, rfl⟩

/-- Claim C8 (amended): the claimed behaviour holds for `fix_liquid.py`
only: its `process_file` wraps the whole body in `try`/`except`, so a
file whose read raises, or to which no write succeeds, yields `False` and
the batch total over the remaining files is unchanged; the
`fix_jekyll_syntax.py` variant instead propagates the error and aborts
the batch. -/
theorem c8_liquid_error_skipped (readF : String → Except String Doc)
    (writeF : String → Doc → Except String Unit) (p : String) (ps : List String)
    (e : String)
    (h : readF p = Except.error e ∨ ∀ content : Doc, writeF p content = Except.error e) :
    process_file readF writeF p = false ∧
    liquidBatch readF writeF (p :: ps) = liquidBatch readF writeF ps := by
  have h1 : process_file readF writeF p = false := by
    unfold process_file
    rcases h with h | h
    · rw [h]
    · cases hr : readF p with
      | error e' => rfl
      | ok content =>
        split
        · rfl
        · split
          · split
            · rw [h (fix_template_literals _)]
            · rfl
          · rfl
  exact ⟨h1, by simp [liquidBatch, h1]⟩

theorem c8_liquid_error_witness :
    ((fun _ : String => (Except.error "io error" : Except String Doc)) "a.md" =
        Except.error "io error" ∧
      process_file (fun _ => Except.error "io error") (fun _ _ => Except.ok ())
        "a.md" = false ∧
      liquidBatch (fun _ => Except.error "io error") (fun _ _ => Except.ok ())
        ["a.md", "b.md"] =
        liquidBatch (fun _ => Except.error "io error") (fun _ _ => Except.ok ())
          ["b.md"]) ∧
    ((∀ content : Doc,
        (fun _ : String => fun _ : Doc =>
          (Except.error "disk full" : Except String Unit)) "c.md" content =
          Except.error "disk full") ∧
      hasSub trigger ("```\na$\x7bb\n```".data) = true ∧
      fix_template_literals ("```\na$\x7bb\n```".data) ≠ ("```\na$\x7bb\n```".data) ∧
      process_file (fun _ => Except.ok ("```\na$\x7bb\n```".data))
        (fun _ _ => Except.error "disk full") "c.md" = false ∧
      liquidBatch (fun _ => Except.ok ("```\na$\x7bb\n```".data))
        (fun _ _ => Except.error "disk full") ["c.md", "d.md"] =
        liquidBatch (fun _ => Except.ok ("```\na$\x7bb\n```".data))
          (fun _ _ => Except.error "disk full") ["d.md"]) :=
  ⟨⟨rfl,
    (c8_liquid_error_skipped (fun _ => Except.error "io error")
      (fun _ _ => Except.ok ()) "a.md" ["b.md"] "io error" (Or.inl rfl)).1,
    (c8_liquid_error_skipped (fun _ => Except.error "io error")
      (fun _ _ => Except.ok ()) "a.md" ["b.md"] "io error" (Or.inl rfl)).2⟩,
   ⟨fun _ => rfl, by decide, by decide,
    (c8_liquid_error_skipped (fun _ => Except.ok ("```\na$\x7bb\n```".data))
      (fun _ _ => Except.error "disk full") "c.md" ["d.md"] "disk full"
      (Or.inr (fun _ => rfl))).1,
    (c8_liquid_error_skipped (fun _ => Except.ok ("```\na$\x7bb\n```".data))
      (fun _ _ => Except.error "disk full") "c.md" ["d.md"] "disk full"
      (Or.inr (fun _ => rfl))).2⟩⟩

/-- Claim C9: the no-strip variant (`fix_template_literals` alone, as run by
`process_file` in `fix_liquid.py`) is not idempotent: one more opening
marker line appears per triggered closed block on every re-run, because the
re-parse of its own output wraps each triggered block's already-wrapped
content once more (the old pair ends up nested inside the new one). -/
theorem c9_marker_accumulation (s : Doc)
    (h : 1 ≤ nTrig (parseBlocks (splitNl s))) :
    fix_template_literals (fix_template_literals s) ≠ fix_template_literals s ∧
    cntLine rawLine (splitNl (fix_template_literals (fix_template_literals s))) =
      cntLine rawLine (splitNl (fix_template_literals s)) +
        nTrig (parseBlocks (splitNl s)) ∧
    parseBlocks (splitNl (fix_template_literals s)) =
      (parseBlocks (splitNl s)).map (mapSeg wrapContent) := by
  have hWF : ∀ t ∈ parseBlocks (splitNl s), segWF t := (parseLoop_WF (splitNl s)).1.1
  have hsp1 : splitNl (fix_template_literals s) = fixLines (splitNl s) := splitNl_fixT s
  have hp1 : parseBlocks (splitNl (fix_template_literals s)) =
      (parseBlocks (splitNl s)).map (mapSeg wrapContent) := by
    rw [hsp1, fixLines_renders]
    exact parseBlocks_render (splitNl s)
  have hcnt : cntLine rawLine (splitNl (fix_template_literals (fix_template_literals s))) =
      cntLine rawLine (splitNl (fix_template_literals s)) +
        nTrig (parseBlocks (splitNl s)) := by
    rw [splitNl_fixT, fixLines_renders, hp1, cnt_raw_wrap_segs _ hWF, hsp1, fixLines_renders]
  refine ⟨?_, hcnt, hp1⟩
  intro heq
  rw [heq] at hcnt
  omega

theorem c9_marker_accumulation_witness :
    1 ≤ nTrig (parseBlocks (splitNl ("```\na$\x7bb\n```".data))) ∧
    fix_template_literals (fix_template_literals ("```\na$\x7bb\n```".data)) ≠
      fix_template_literals ("```\na$\x7bb\n```".data) :=
  ⟨by decide, (c9_marker_accumulation _ (by decide)).1⟩

/-- Claim C10: the strip pass works on the whole document text at the
substring level: each strip scan leaves a text unchanged exactly when the
corresponding marker substring does not occur in it at all — there is no
restriction to fenced blocks or to whole lines — and consequently an input
with marker substrings in prose, even embedded in the middle of a line,
is not returned unchanged by `clean_and_fix`. -/
theorem c10_strip_global :
    (∀ s : Doc, (stripRaw s = s ↔ hasSub rawMark s = false)) ∧
    (∀ s : Doc, (stripEnd s = s ↔ hasSub endMark s = false)) ∧
    clean_and_fix ("prose with \x7b% raw %\x7d inside\nand mid\x7b% endraw %\x7dline".data) =
      "prose with  inside\nand midline".data ∧
    ("prose with \x7b% raw %\x7d inside\nand mid\x7b% endraw %\x7dline".data : Doc) ≠
      "prose with  inside\nand midline".data :=
  ⟨stripRaw_eq_self_iff, stripEnd_eq_self_iff, by decide, by decide⟩
